import Mathlib

/-!
Verification development for the tinyland-analytics aggregation-and-persistence
core.  The definitions below are a shallow embedding of the TypeScript sources:

* `src/mdsvex-writer.ts` — the aggregate computation of `writeAnalyticsToMDsveX`
  (totalCount, uniqueCount, averageDaily, peakDay, peakHour), the frontmatter
  serialization, and the frontmatter parser of `readAnalyticsFromMDsveX`;
* the real-time writer module — `flushAnalyticsBuffer` with its per-category
  try/catch, month grouping, and merge-on-existing write path;
* the query-service module — the trend computation of `getTrendingAnalytics`.

Modelling conventions:

* Timestamps (JS `Date` values) are integers counting minutes since the Unix
  epoch in UTC.  The ambient timezone of the JS runtime is an explicit offset
  parameter `tz` in minutes (local time = UTC + tz); `Date#toISOString` uses
  the UTC representation while `Date#getHours` / `getFullYear` / `getMonth`
  use the local one.  Sub-minute precision never affects any embedded
  computation (day and hour bucketing only need minutes).
* Record values (JS `number`) are modelled as integers; the claims under
  consideration restrict attention to integer-valued inputs.
* JS objects used as accumulation maps are modelled as association lists in
  key-insertion order; `Object.entries` on an object whose keys are
  integer-like strings (the hourly totals) enumerates those keys in ascending
  numeric order, which the embedding makes explicit.
* `Array.prototype.sort` is required by the language spec to be stable; it is
  modelled by a stable insertion sort with the same comparator.
* Strings are manipulated as `List Char`; file-system effects are an explicit
  environment of `Except`-valued read/write operations.  The rendered markdown
  body of a document (locale-dependent via `toLocaleDateString` /
  `toLocaleString`) is abstracted as an opaque byte list supplied by the
  environment; no claim depends on its contents.
-/

namespace Analytics

/-- Characters treated as whitespace by the model of JavaScript
`String.prototype.trim` used in the frontmatter decoder. -/
def isWsChar (c : Char) : Bool := c = ' ' || c = '\t' || c = '\r' || c = '\n'

/-- Model of JavaScript `value.trim()` on a list of characters. -/
def jsTrim (s : List Char) : List Char :=
  ((s.dropWhile isWsChar).reverse.dropWhile isWsChar).reverse

/-- The ten decimal digit characters, in order. -/
def digitChars : List Char := ['0', '1', '2', '3', '4', '5', '6', '7', '8', '9']

/-- Digit character of one decimal digit. -/
def digitChar (d : ℕ) : Char := digitChars.getD d '0'

/-- Numeric value of one decimal digit character. -/
def charToDigit (c : Char) : ℕ := digitChars.indexOf c

/-- Fuel-driven decimal rendering of a natural number (most significant digit
first); with fuel at least `n + 1` the fuel never runs out. -/
def natDigitsAux : ℕ → ℕ → List Char
  | 0, _ => []
  | fuel + 1, n =>
    if n < 10 then [digitChar n]
    else natDigitsAux fuel (n / 10) ++ [digitChar (n % 10)]

/-- Decimal rendering of a natural number, as JS number-to-string produces for
integral values. -/
def renderNat (n : ℕ) : List Char := natDigitsAux (n + 1) n

/-- Decimal rendering of an integer, as JS number-to-string produces for
integral values. -/
def renderInt (z : ℤ) : List Char :=
  if z < 0 then '-' :: renderNat (-z).toNat else renderNat z.toNat

/-- Parse a non-empty all-digit character list as a natural number. -/
def parseDigits (s : List Char) : Option ℕ :=
  if s ≠ [] ∧ s.all (fun c => decide (c ∈ digitChars)) then
    some (s.foldl (fun a c => 10 * a + charToDigit c) 0)
  else none

/-- Parse an optionally `-`-signed decimal integer literal. -/
def parseNumberZ (s : List Char) : Option ℤ :=
  if s.head? = some '-' then (parseDigits (s.drop 1)).map (fun n => -(n : ℤ))
  else (parseDigits s).map (fun n => (n : ℤ))

/-- Model of the JS numeric conversion `Number(value)` restricted to the
document language this codec emits: the empty string converts to `0` (as in
JS) and signed decimal integer literals convert to their value; everything
else (in particular any non-numeric string) is `NaN`, i.e. `none`.  The
encoder below only ever emits bare integer numerals, so non-integer numeric
syntax (floats, exponents, hex) never occurs in a document it wrote. -/
def jsNumberOf (s : List Char) : Option ℤ :=
  if s = [] then some 0 else parseNumberZ s

/-- Split a character list into lines at `'\n'`, as JS `text.split('\n')`:
`splitLinesAux s acc` accumulates the current (reversed) line in `acc`. -/
def splitLinesAux : List Char → List Char → List (List Char)
  | [], cur => [cur.reverse]
  | c :: rest, cur =>
    if c = '\n' then cur.reverse :: splitLinesAux rest []
    else splitLinesAux rest (c :: cur)

/-- Split a character list into lines at `'\n'`, as JS `text.split('\n')`. -/
def splitLines (s : List Char) : List (List Char) := splitLinesAux s []

/-- Join lines with `'\n'` separators. -/
def joinLines (ls : List (List Char)) : List Char := List.intercalate ['\n'] ls

/-- Split at the first `':'`: `some (before, after)` when a colon exists.  This
models the decoder's `line.split(':')` followed by rejoining the tail with
`':'`. -/
def splitFirstColonAux : List Char → List Char → Option (List Char × List Char)
  | [], _ => none
  | c :: rest, acc =>
    if c = ':' then some (acc.reverse, rest) else splitFirstColonAux rest (c :: acc)

/-- Split a line at its first `':'`, if any. -/
def splitFirstColon (s : List Char) : Option (List Char × List Char) :=
  splitFirstColonAux s []

/-- A prefix test on character lists (first argument is the pattern). -/
def startsWith : List Char → List Char → Bool
  | [], _ => true
  | _ :: _, [] => false
  | p :: ps, c :: cs => p = c && startsWith ps cs

/-- Find the first occurrence of `pat` as a contiguous sublist: returns the
part before the occurrence and the part after it.  This models the lazy regex
capture `^---\n([\s\S]*?)\n---` finding the first closing delimiter. -/
def breakOnSub (pat : List Char) : List Char → Option (List Char × List Char)
  | [] => if startsWith pat [] then some ([], []) else none
  | c :: rest =>
    if startsWith pat (c :: rest) then some ([], (c :: rest).drop pat.length)
    else (breakOnSub pat rest).map (fun p => (c :: p.1, p.2))

/-! ### Calendar arithmetic (the relevant fragment of JS `Date`) -/

/-- Day number since the Unix epoch of a UTC minute count. -/
def epochDay (mins : ℤ) : ℤ := Int.fdiv mins 1440

/-- Minute of day (0–1439) of a minute count. -/
def minuteOfDay (mins : ℤ) : ℕ := (Int.emod mins 1440).toNat

/-- Hour of day (0–23) of a minute count. -/
def hourOfDayMinutes (mins : ℤ) : ℕ := minuteOfDay mins / 60

/-- Proleptic-Gregorian civil date `(year, month, day)` of an epoch day
number (the standard era-based conversion algorithm, as implemented by
JS `Date`). -/
def civilFromDays (z : ℤ) : ℤ × ℕ × ℕ :=
  let zShift : ℤ := z + 719468
  let era : ℤ := Int.fdiv zShift 146097
  let doe : ℕ := (zShift - era * 146097).toNat
  let yoe : ℕ := (doe - doe / 1460 + doe / 36524 - doe / 146096) / 365
  let doy : ℕ := doe - (365 * yoe + yoe / 4 - yoe / 100)
  let mp : ℕ := (5 * doy + 2) / 153
  let d : ℕ := doy - (153 * mp + 2) / 5 + 1
  let m : ℕ := if mp < 10 then mp + 3 else mp - 9
  let y : ℤ := (yoe : ℤ) + era * 400
  (if m ≤ 2 then y + 1 else y, m, d)

/-- Zero-pad a natural number to at least two digits. -/
def pad2 (n : ℕ) : List Char := if n < 10 then '0' :: renderNat n else renderNat n

/-- Zero-pad a natural number to at least four digits. -/
def pad4 (n : ℕ) : List Char :=
  if n < 10 then '0' :: '0' :: '0' :: renderNat n
  else if n < 100 then '0' :: '0' :: renderNat n
  else if n < 1000 then '0' :: renderNat n
  else renderNat n

/-- Render a (possibly negative) year. -/
def renderYear (y : ℤ) : List Char :=
  if y < 0 then '-' :: pad4 (-y).toNat else pad4 y.toNat

/-- The `YYYY-MM-DD` date part of `Date#toISOString` of a UTC minute count. -/
def isoDateChars (mins : ℤ) : List Char :=
  let c := civilFromDays (epochDay mins)
  renderYear c.1 ++ '-' :: pad2 c.2.1 ++ '-' :: pad2 c.2.2

/-- The `YYYY-MM-DD` date part of `Date#toISOString`, as a string. -/
def isoDate (mins : ℤ) : String := String.mk (isoDateChars mins)

/-- Full `Date#toISOString` output (`YYYY-MM-DDTHH:MM:SS.mmmZ`) of a UTC
minute count; seconds and milliseconds are zero at the embedding's minute
resolution. -/
def isoDateTimeChars (mins : ℤ) : List Char :=
  isoDateChars mins ++ 'T' :: pad2 (hourOfDayMinutes mins) ++
    ':' :: pad2 (minuteOfDay mins % 60) ++ [':', '0', '0', '.', '0', '0', '0', 'Z']

/-- Embeds `item.timestamp.toISOString().split('T')[0]` from
`writeAnalyticsToMDsveX`: the day-bucketing key is the UTC calendar date of
the timestamp, independent of the runtime timezone. -/
def dayKey (t : ℤ) : String := isoDate t

/-- Embeds `item.timestamp.getHours()`: the hour of day in the runtime's
local representation, i.e. after adding the timezone offset `tz`. -/
def getHours (tz t : ℤ) : ℕ := hourOfDayMinutes (t + tz)

/-- Embeds `Date#getFullYear` (local representation). -/
def getFullYear (tz t : ℤ) : ℤ := (civilFromDays (epochDay (t + tz))).1

/-- Embeds `Date#getMonth() + 1` (local representation, 1-based month). -/
def getMonth1 (tz t : ℤ) : ℕ := (civilFromDays (epochDay (t + tz))).2.1

/-! ### Data model -/

/-- The closed category enumeration. -/
inductive Category where
  | pageViews
  | events
  | userActivity
deriving DecidableEq

/-- The string form of a category used in paths and frontmatter. -/
def Category.str : Category → String
  | .pageViews => "page-views"
  | .events => "events"
  | .userActivity => "user-activity"

/-- One analytics record (`AnalyticsData` in the source): a timestamp (epoch
minutes, UTC) and a numeric value.  The free-form `metadata` field is not
modelled: none of the embedded computations consult it. -/
structure AnalyticsData where
  timestamp : ℤ
  value : ℤ
deriving DecidableEq

/-- Typed frontmatter values: the writer emits strings and numbers, and the
reader additionally recognizes booleans. -/
inductive FmValue where
  | vStr (s : String)
  | vInt (n : ℤ)
  | vBool (b : Bool)
deriving DecidableEq

/-- A frontmatter object: key-value pairs in insertion order (string keys of
the frontmatter are never integer-like, so JS preserves insertion order). -/
abbrev Frontmatter := List (String × FmValue)

/-! ### The aggregate statistics of `writeAnalyticsToMDsveX` -/

/-- `data.reduce((sum, item) => sum + item.value, 0)`. -/
def totalCount (data : List AnalyticsData) : ℤ :=
  data.foldl (fun s r => s + r.value) 0

/-- The day-bucket key of one record. -/
def recordDay (r : AnalyticsData) : String := dayKey r.timestamp

/-- `new Set(data.map(item => item.timestamp.toISOString().split('T')[0])).size`:
the number of distinct day keys. -/
def uniqueDays (data : List AnalyticsData) : ℕ :=
  ((data.map recordDay).dedup).length

/-- JS `Math.round` on an exact rational: the integer `⌊q + 1/2⌋` (halves
round toward positive infinity), written with `Int.fdiv` so that it evaluates
by kernel reduction.  `jsRound_eq_floor` below relates it to `Int.floor`. -/
def jsRound (q : ℚ) : ℤ := Int.fdiv (2 * q.num + q.den) (2 * q.den)

/-- `uniqueDays > 0 ? Math.round(totalCount / uniqueDays) : 0`. -/
def averageDaily (data : List AnalyticsData) : ℤ :=
  if 0 < uniqueDays data then jsRound (mkRat (totalCount data) (uniqueDays data))
  else 0

/-- Upsert into a JS-object-as-association-list: add `v` onto the entry at
key `k` (keeping its position), or append a new entry at the end — the
behaviour of `acc[k] = (acc[k] || 0) + v` on a plain object. -/
def bumpEntry {α : Type} [DecidableEq α] (acc : List (α × ℤ)) (k : α) (v : ℤ) :
    List (α × ℤ) :=
  if acc.any (fun p => decide (p.1 = k)) then
    acc.map (fun p => if p.1 = k then (p.1, p.2 + v) else p)
  else acc ++ [(k, v)]

/-- The `dailyTotals` accumulation object: summed value per day key, entries
in insertion order of first occurrence (date-string keys are not
integer-like). -/
def dailyTotals (data : List AnalyticsData) : List (String × ℤ) :=
  data.foldl (fun acc r => bumpEntry acc (recordDay r) r.value) []

/-- The `hourlyTotals` accumulation object: summed value per local hour, in
insertion order of first occurrence (before `Object.entries` reorders the
integer-like keys). -/
def hourlyTotals (tz : ℤ) (data : List AnalyticsData) : List (ℕ × ℤ) :=
  data.foldl (fun acc r => bumpEntry acc (getHours tz r.timestamp) r.value) []

/-- Stable insertion (descending by the `ℤ` component) used to model the
stable `sort(([, a], [, b]) => b - a)`: the inserted element goes after every
element with a strictly greater value and also after earlier elements with an
equal value. -/
def insertValueDesc {α : Type} (p : α × ℤ) : List (α × ℤ) → List (α × ℤ)
  | [] => [p]
  | q :: rest => if p.2 < q.2 then q :: insertValueDesc p rest else p :: q :: rest

/-- Stable sort descending by value, modelling the (spec-mandated stable) JS
`Array.prototype.sort` with comparator `(a, b) => b - a` on entry values. -/
def sortValueDesc {α : Type} : List (α × ℤ) → List (α × ℤ)
  | [] => []
  | p :: rest => insertValueDesc p (sortValueDesc rest)

/-- Insertion (ascending by the `ℕ` key) used to model `Object.entries` on an
object with integer-like keys. -/
def insertKeyAsc (p : ℕ × ℤ) : List (ℕ × ℤ) → List (ℕ × ℤ)
  | [] => [p]
  | q :: rest => if q.1 ≤ p.1 then q :: insertKeyAsc p rest else p :: q :: rest

/-- Sort ascending by key. -/
def sortKeyAsc : List (ℕ × ℤ) → List (ℕ × ℤ)
  | [] => []
  | p :: rest => insertKeyAsc p (sortKeyAsc rest)

/-- `Object.entries` on a JS object whose keys are all integer-like strings
(the hourly totals, keys "0"–"23") enumerates entries in ascending numeric
key order, regardless of insertion order. -/
def jsEntriesNumKeyed (l : List (ℕ × ℤ)) : List (ℕ × ℤ) := sortKeyAsc l

/-- `Object.entries(dailyTotals).sort(([, a], [, b]) => b - a)[0]?.[0] || ''`. -/
def peakDay (data : List AnalyticsData) : String :=
  match (sortValueDesc (dailyTotals data)).head? with
  | some p => p.1
  | none => ""

/-- `parseInt(Object.entries(hourlyTotals).sort(([, a], [, b]) => b - a)[0]?.[0] || '0')`;
`Object.entries` enumerates the integer-like hour keys in ascending numeric
order. -/
def peakHour (tz : ℤ) (data : List AnalyticsData) : ℕ :=
  match (sortValueDesc (jsEntriesNumKeyed (hourlyTotals tz data))).head? with
  | some p => p.1
  | none => 0

/-- Overwrite-or-append assignment on a frontmatter object: an existing key
keeps its position and gets the new value (JS object spread semantics). -/
def jsSetKey (acc : Frontmatter) (k : String) (v : FmValue) : Frontmatter :=
  if acc.any (fun p => decide (p.1 = k)) then
    acc.map (fun p => if p.1 = k then (k, v) else p)
  else acc ++ [(k, v)]

/-- `{ ...base, ...extra }` on frontmatter objects. -/
def jsSpread (base extra : Frontmatter) : Frontmatter :=
  extra.foldl (fun acc kv => jsSetKey acc kv.1 kv.2) base

/-- The frontmatter object assembled by `writeAnalyticsToMDsveX` (source
lines 88–99): the base fields computed from `data` in literal order, then the
caller's `additionalFrontmatter` spread over them.  `now` is the wall clock
used for `new Date().toISOString()`. -/
def buildFrontmatter (tz now : ℤ) (ty : Category) (year : ℤ) (month : ℕ)
    (data : List AnalyticsData) (additional : Frontmatter) : Frontmatter :=
  jsSpread
    [("type", .vStr ty.str),
     ("year", .vInt year),
     ("month", .vInt month),
     ("totalCount", .vInt (totalCount data)),
     ("uniqueCount", .vInt (uniqueDays data)),
     ("averageDaily", .vInt (averageDaily data)),
     ("peakDay", .vStr (peakDay data)),
     ("peakHour", .vInt (peakHour tz data)),
     ("lastUpdated", .vStr (String.mk (isoDateTimeChars now)))]
    additional

/-! ### The document codec -/

/-- Serialization of one frontmatter value:
`typeof value === 'string' ? `"${value}"` : value`. -/
def renderFmValue : FmValue → List Char
  | .vStr s => '"' :: s.data ++ ['"']
  | .vInt n => renderInt n
  | .vBool b => if b then ['t', 'r', 'u', 'e'] else ['f', 'a', 'l', 's', 'e']

/-- One `key: value` header line. -/
def encodeLine (kv : String × FmValue) : List Char :=
  kv.1.data ++ ':' :: ' ' :: renderFmValue kv.2

/-- The header block: lines joined with newlines. -/
def encodeHeader (fm : Frontmatter) : List Char := joinLines (fm.map encodeLine)

/-- The frontmatter delimiter. -/
def fmDelim : List Char := ['-', '-', '-']

/-- The full document written by `writeAnalyticsToMDsveX`:
`---\n<header>\n---\n\n<body>` where `<body>` is the rendered markdown. -/
def encodeDoc (fm : Frontmatter) (body : List Char) : List Char :=
  fmDelim ++ '\n' :: encodeHeader fm ++ '\n' :: fmDelim ++ '\n' :: '\n' :: body

/-- The header capture of the decoder's anchored lazy regex match (pattern
`^---\n([\s\S]*?)\n---` applied to the whole document): requires the leading
`---\n`, then captures lazily up to the first `\n---`. -/
def extractHeaderBlock (content : List Char) : Option (List Char) :=
  if startsWith (fmDelim ++ ['\n']) content then
    (breakOnSub ('\n' :: fmDelim) (content.drop 4)).map Prod.fst
  else none

/-- The decoder's value sniffing: quoted → unquoted string, else numeric →
number, else `true`/`false` → boolean, else the raw string. -/
def parseFmValue (s : List Char) : FmValue :=
  if s.head? = some '"' ∧ s.getLast? = some '"' then
    .vStr (String.mk ((s.drop 1).dropLast))
  else
    match jsNumberOf s with
    | some n => .vInt n
    | none =>
      if s = ['t', 'r', 'u', 'e'] then .vBool true
      else if s = ['f', 'a', 'l', 's', 'e'] then .vBool false
      else .vStr (String.mk s)

/-- Decode one header line: split at the first colon; skip the line when
there is no colon (`valueParts.length` falsy) or the raw key is empty (`key`
falsy); otherwise trim both parts and sniff the value type. -/
def decodeLine (line : List Char) : Option (String × FmValue) :=
  match splitFirstColon line with
  | none => none
  | some (key, rest) =>
    if key = [] then none
    else some (String.mk (jsTrim key), parseFmValue (jsTrim rest))

/-- Decode the header block into a frontmatter object (later duplicate keys
overwrite earlier ones, as JS object assignment does). -/
def decodeHeader (h : List Char) : Frontmatter :=
  (splitLines h).foldl
    (fun acc line =>
      match decodeLine line with
      | some kv => jsSetKey acc kv.1 kv.2
      | none => acc)
    []

/-- `readAnalyticsFromMDsveX`'s pure decoding step: `none` exactly when the
frontmatter delimiter block is absent. -/
def decodeDoc (content : List Char) : Option Frontmatter :=
  (extractHeaderBlock content).map decodeHeader

/-! ### Storage environment and the effectful operations -/

/-- Errors raised by the storage layer: the distinguished not-found error
(`code === 'ENOENT'`) and everything else. -/
inductive JsError where
  | enoent
  | other (code : ℕ)
deriving DecidableEq

/-- The file-system collaborator, addressed by the canonical
`(category, year, month)` key that `writeAnalyticsToMDsveX` and
`readAnalyticsFromMDsveX` resolve to a path.  `renderBody` abstracts the
locale-dependent markdown rendering of `formatAnalyticsData` and the
surrounding template; no embedded claim depends on the body text. -/
structure FsEnv where
  readFile : Category → ℤ → ℕ → Except JsError (List Char)
  writeFile : Category → ℤ → ℕ → List Char → Except JsError Unit
  renderBody : List AnalyticsData → List Char

/-- `readAnalyticsFromMDsveX` (source lines 164–200): read the file, return
`null` when the frontmatter block is absent; the catch block maps an `ENOENT`
error to `null` and re-raises every other error. -/
def readAnalyticsFromMDsveX (env : FsEnv) (ty : Category) (year : ℤ) (month : ℕ) :
    Except JsError (Option Frontmatter) :=
  match env.readFile ty year month with
  | .ok content => .ok (decodeDoc content)
  | .error e => if e = .enoent then .ok none else .error e

/-- `writeAnalyticsToMDsveX`: build the frontmatter from the data and the
caller's overrides, encode the document, and write it.  The model returns the
written frontmatter (the source returns the file path; the directory-creation
step has no observable effect in the model). -/
def writeAnalyticsToMDsveX (env : FsEnv) (tz now : ℤ) (ty : Category)
    (year : ℤ) (month : ℕ) (data : List AnalyticsData) (additional : Frontmatter) :
    Except JsError Frontmatter :=
  let fm := buildFrontmatter tz now ty year month data additional
  match env.writeFile ty year month (encodeDoc fm (env.renderBody data)) with
  | .ok _ => .ok fm
  | .error e => .error e

/-! ### The real-time writer: `flushAnalyticsBuffer` -/

/-- One step of the `byMonth` grouping: append the record to its month's
entry (a `Map` keyed by `` `${year}-${month}` `` preserves insertion order). -/
def groupByMonthStep (tz : ℤ) (acc : List ((ℤ × ℕ) × List AnalyticsData))
    (r : AnalyticsData) : List ((ℤ × ℕ) × List AnalyticsData) :=
  let k := (getFullYear tz r.timestamp, getMonth1 tz r.timestamp)
  if acc.any (fun p => decide (p.1 = k)) then
    acc.map (fun p => if p.1 = k then (p.1, p.2 ++ [r]) else p)
  else acc ++ [(k, [r])]

/-- Group a buffer by (local) calendar month, months in first-occurrence
order, records of one month in buffer order. -/
def groupByMonth (tz : ℤ) (buffer : List AnalyticsData) :
    List ((ℤ × ℕ) × List AnalyticsData) :=
  buffer.foldl (groupByMonthStep tz) []

/-- `existing.frontmatter.totalCount || 0`, for the numeric-or-absent
`totalCount` fields this writer persists. -/
def jsTotalField (fm : Frontmatter) : ℤ :=
  match fm.lookup "totalCount" with
  | some (.vInt n) => n
  | _ => 0

/-- The per-month body of `flushAnalyticsBuffer`'s write loop (source lines
441–467): read the existing month; if present, write the new batch with
`totalCount` overridden to `existing + new batch sum` and a fresh
`lastUpdated`; otherwise write the freshly computed aggregate. -/
def flushMonth (env : FsEnv) (tz now : ℤ) (ty : Category) (year : ℤ) (month : ℕ)
    (data : List AnalyticsData) : Except JsError Frontmatter :=
  match readAnalyticsFromMDsveX env ty year month with
  | .error e => .error e
  | .ok (some existing) =>
    writeAnalyticsToMDsveX env tz now ty year month data
      [("totalCount", .vInt (jsTotalField existing + totalCount data)),
       ("lastUpdated", .vStr (String.mk (isoDateTimeChars now)))]
  | .ok none => writeAnalyticsToMDsveX env tz now ty year month data []

/-- The month loop for one category's buffer: sequential, aborted by the
first raised error (the surrounding `try` re-enters at the category level). -/
def flushCategory (env : FsEnv) (tz now : ℤ) (ty : Category)
    (buffer : List AnalyticsData) : Except JsError Unit :=
  (groupByMonth tz buffer).foldlM
    (fun _ g => (flushMonth env tz now ty g.1.1 g.1.2 g.2).map (fun _ => ())) ()

/-- The three per-category buffers. -/
abbrev Buffers := Category → List AnalyticsData

/-- Clear one category's buffer. -/
def clearCat (bufs : Buffers) (t : Category) : Buffers :=
  fun t' => if t' = t then [] else bufs t'

/-- JS `try { body } catch (e) { handler }` in the `Except` monad. -/
def jsTryCatch {α : Type} (body : Except JsError α)
    (handler : JsError → Except JsError α) : Except JsError α :=
  match body with
  | .ok a => .ok a
  | .error e => handler e

/-- The category list `type ? [type] : ['page-views', 'events', 'user-activity']`. -/
def targetCategories : Option Category → List Category
  | some t => [t]
  | none => [.pageViews, .events, .userActivity]

/-- Result of a flush: the buffers left behind and the failures handed to the
logger by the catch block. -/
structure FlushOutcome where
  buffers : Buffers
  flushLog : List (Category × JsError)

/-- The per-category body of `flushAnalyticsBuffer`: skip an empty buffer;
otherwise run the month loop inside `try`, clearing the buffer on success,
and on failure log the error and leave the buffer untouched. -/
def flushStep (env : FsEnv) (tz now : ℤ) (st : FlushOutcome) (t : Category) :
    Except JsError FlushOutcome :=
  if st.buffers t = [] then .ok st
  else
    jsTryCatch
      ((flushCategory env tz now t (st.buffers t)).map fun _ =>
        { st with buffers := clearCat st.buffers t })
      (fun e => .ok { st with flushLog := st.flushLog ++ [(t, e)] })

/-- `flushAnalyticsBuffer(type?)` (source lines 416–484): iterate the
targeted categories, each protected by its own try/catch. -/
def flushAnalyticsBuffer (env : FsEnv) (tz now : ℤ) (bufs : Buffers)
    (sel : Option Category) : Except JsError FlushOutcome :=
  (targetCategories sel).foldlM (flushStep env tz now) ⟨bufs, []⟩

/-! ### The trend computation of `getTrendingAnalytics` -/

/-- The result record of `getTrendingAnalytics` (periods flattened). -/
structure TrendResult where
  trend : String
  percentageChange : ℚ
  currentTotal : ℤ
  currentAverage : ℤ
  previousTotal : ℤ
  previousAverage : ℤ
deriving DecidableEq

/-- `previous.total > 0 ? ((current.total - previous.total) / previous.total) * 100 : 0`. -/
def rawPercentageChange (current previous : ℤ) : ℚ :=
  if 0 < previous then ((current : ℚ) - previous) / previous * 100 else 0

/-- The computation `getTrendingAnalytics` performs on the two window
summaries produced by its `queryAnalytics` calls (the wall-clock window
selection itself queries the store and is not part of this pure tail). -/
def getTrendingAnalytics (currentTotal currentAverage previousTotal previousAverage : ℤ) :
    TrendResult :=
  let pc := rawPercentageChange currentTotal previousTotal
  { trend := if 5 < pc then "up" else if pc < -5 then "down" else "stable"
    percentageChange := (jsRound (pc * 10) : ℚ) / 10
    currentTotal := currentTotal
    currentAverage := currentAverage
    previousTotal := previousTotal
    previousAverage := previousAverage }

/-! ### Definitions following the specification's words (for comparison) -/

/-- Modelled from the spec: the calendar date of the timestamp's local
representation (`Day bucketing key = the record's timestamp truncated to
calendar date in the timestamp's local representation`). -/
def specLocalDate (tz t : ℤ) : String := isoDate (t + tz)

/-- Modelled from the spec: the hour of day of the timestamp's local
representation. -/
def specLocalHour (tz t : ℤ) : ℕ := hourOfDayMinutes (t + tz)

/-- Modelled from the spec: rounding to the nearest integer with `.5` cases
rounded half away from zero. -/
def specRoundHalfAwayFromZero (q : ℚ) : ℤ :=
  if 0 ≤ q then ⌊q + (1 : ℚ) / 2⌋ else -⌊-q + (1 : ℚ) / 2⌋

/-! ## Lemmas about the numeric and textual primitives -/

theorem jsRound_eq_floor (q : ℚ) : jsRound q = ⌊q + (1 : ℚ) / 2⌋ := by
  have hden : (0 : ℤ) < (q.den : ℤ) := by exact_mod_cast q.pos
  have hfe : jsRound q = (2 * q.num + q.den) / (2 * (q.den : ℤ)) :=
    Int.fdiv_eq_ediv _ (by omega)
  set n : ℤ := (2 * q.num + q.den) / (2 * (q.den : ℤ)) with hn
  have h1 : n * (2 * (q.den : ℤ)) ≤ 2 * q.num + q.den := Int.ediv_mul_le _ (by omega)
  have h2 : 2 * q.num + q.den < (n + 1) * (2 * (q.den : ℤ)) :=
    Int.lt_ediv_add_one_mul_self _ (by omega)
  have hnum : (q.num : ℚ) = q * (q.den : ℚ) := by
    have hd : ((q.den : ℚ)) ≠ 0 := by
      have h0 : q.den ≠ 0 := Nat.pos_iff_ne_zero.mp q.pos
      exact_mod_cast h0
    exact (div_eq_iff hd).mp (Rat.num_div_den q)
  have hdenQ : (0 : ℚ) < (q.den : ℚ) := by exact_mod_cast hden
  rw [hfe]
  symm
  rw [Int.floor_eq_iff]
  constructor
  · have h1Q : (n : ℚ) * (2 * (q.den : ℚ)) ≤ 2 * q.num + q.den := by exact_mod_cast h1
    rw [hnum] at h1Q
    nlinarith [h1Q, hdenQ]
  · have h2Q : (2 : ℚ) * q.num + q.den < ((n : ℚ) + 1) * (2 * (q.den : ℚ)) := by
      exact_mod_cast h2
    rw [hnum] at h2Q
    nlinarith [h2Q, hdenQ]

/-- The rounded value is within a half of the argument, with the excess
strictly greater than `-1/2`. -/
theorem jsRound_dist (q : ℚ) :
    -(1 : ℚ) / 2 < (jsRound q : ℚ) - q ∧ (jsRound q : ℚ) - q ≤ 1 / 2 := by
  rw [jsRound_eq_floor]
  have h1 : (⌊q + (1 : ℚ) / 2⌋ : ℚ) ≤ q + 1 / 2 := Int.floor_le _
  have h2 : q + (1 : ℚ) / 2 < ⌊q + (1 : ℚ) / 2⌋ + 1 := Int.lt_floor_add_one _
  constructor <;> linarith

theorem jsRound_eq_away_of_nonneg (q : ℚ) (h : 0 ≤ q) :
    jsRound q = specRoundHalfAwayFromZero q := by
  rw [jsRound_eq_floor, specRoundHalfAwayFromZero, if_pos h]

theorem digitChar_mem (d : ℕ) (h : d < 10) : digitChar d ∈ digitChars := by
  interval_cases d <;> decide

theorem charToDigit_digitChar (d : ℕ) (h : d < 10) : charToDigit (digitChar d) = d := by
  interval_cases d <;> decide

theorem digit_not_ws {c : Char} (h : c ∈ digitChars) : isWsChar c = false := by
  fin_cases h <;> decide

theorem digit_ne {c : Char} (h : c ∈ digitChars) :
    c ≠ '\n' ∧ c ≠ ':' ∧ c ≠ '"' ∧ c ≠ '-' := by
  fin_cases h <;> decide

/-- The digit-string value accumulated by `parseDigits`. -/
def digitsVal (s : List Char) : ℕ := s.foldl (fun a c => 10 * a + charToDigit c) 0

theorem digitsVal_append_one (l : List Char) (c : Char) :
    digitsVal (l ++ [c]) = 10 * digitsVal l + charToDigit c := by
  simp [digitsVal, List.foldl_append]

theorem natDigitsAux_spec :
    ∀ (fuel n : ℕ), n < fuel →
      (∀ c ∈ natDigitsAux fuel n, c ∈ digitChars) ∧
      natDigitsAux fuel n ≠ [] ∧
      digitsVal (natDigitsAux fuel n) = n := by
  intro fuel
  induction fuel with
  | zero => intro n h; omega
  | succ f ih =>
    intro n h
    by_cases hlt : n < 10
    · refine ⟨?_, ?_, ?_⟩
      · intro c hc
        simp only [natDigitsAux, if_pos hlt, List.mem_singleton] at hc
        exact hc ▸ digitChar_mem n hlt
      · simp [natDigitsAux, if_pos hlt]
      · simp [natDigitsAux, if_pos hlt, digitsVal, charToDigit_digitChar n hlt]
    · have hdiv : n / 10 < f := by
        have h1 : n / 10 < n := Nat.div_lt_self (by omega) (by omega)
        omega
      obtain ⟨hmem, hne, hval⟩ := ih (n / 10) hdiv
      refine ⟨?_, ?_, ?_⟩
      · intro c hc
        simp only [natDigitsAux, if_neg hlt, List.mem_append, List.mem_singleton] at hc
        rcases hc with hc | hc
        · exact hmem c hc
        · exact hc ▸ digitChar_mem (n % 10) (Nat.mod_lt _ (by omega))
      · simp [natDigitsAux, if_neg hlt]
      · have : digitsVal (natDigitsAux f (n / 10) ++ [digitChar (n % 10)]) =
            10 * (n / 10) + n % 10 := by
          rw [digitsVal_append_one, hval, charToDigit_digitChar _ (Nat.mod_lt _ (by omega))]
        simp only [natDigitsAux, if_neg hlt, this]
        omega

theorem renderNat_digits (n : ℕ) : ∀ c ∈ renderNat n, c ∈ digitChars :=
  (natDigitsAux_spec (n + 1) n (by omega)).1

theorem renderNat_ne_nil (n : ℕ) : renderNat n ≠ [] :=
  (natDigitsAux_spec (n + 1) n (by omega)).2.1

theorem parseDigits_renderNat (n : ℕ) : parseDigits (renderNat n) = some n := by
  obtain ⟨hmem, hne, hval⟩ := natDigitsAux_spec (n + 1) n (by omega)
  rw [parseDigits, if_pos]
  · exact congrArg some hval
  · refine ⟨hne, ?_⟩
    rw [List.all_eq_true]
    intro c hc
    exact decide_eq_true (hmem c hc)

theorem mem_of_getLast?_eq {α : Type} {l : List α} {a : α} (h : l.getLast? = some a) :
    a ∈ l := by
  have hmem : a ∈ l.getLast? := by rw [h]; rfl
  obtain ⟨hne, heq⟩ := List.mem_getLast?_eq_getLast hmem
  rw [heq]
  exact List.getLast_mem hne

theorem renderNat_head_digit (n : ℕ) :
    ∃ c, (renderNat n).head? = some c ∧ c ∈ digitChars := by
  rcases hr : renderNat n with _ | ⟨c, rest⟩
  · exact absurd hr (renderNat_ne_nil n)
  · refine ⟨c, rfl, renderNat_digits n c ?_⟩
    rw [hr]
    exact List.mem_cons_self c rest

theorem renderNat_getLast_digit (n : ℕ) :
    ∃ c, (renderNat n).getLast? = some c ∧ c ∈ digitChars := by
  rcases hr : (renderNat n).getLast? with _ | c
  · exact absurd (List.getLast?_eq_none_iff.mp hr) (renderNat_ne_nil n)
  · exact ⟨c, rfl, renderNat_digits n c (mem_of_getLast?_eq hr)⟩

theorem parseNumberZ_renderInt (z : ℤ) : parseNumberZ (renderInt z) = some z := by
  by_cases hneg : z < 0
  · rw [renderInt, if_pos hneg, parseNumberZ,
      if_pos (show ('-' :: renderNat (-z).toNat).head? = some '-' from rfl)]
    have hz : ((-z).toNat : ℤ) = -z := Int.toNat_of_nonneg (by omega)
    simp [parseDigits_renderNat, hz]
  · rw [renderInt, if_neg hneg, parseNumberZ, if_neg, parseDigits_renderNat]
    · have hz : (z.toNat : ℤ) = z := Int.toNat_of_nonneg (by omega)
      simp [hz]
    · obtain ⟨c, hc, hcd⟩ := renderNat_head_digit z.toNat
      rw [hc]
      simp only [Option.some.injEq]
      exact (digit_ne hcd).2.2.2

theorem renderInt_ne_nil (z : ℤ) : renderInt z ≠ [] := by
  by_cases hneg : z < 0
  · simp [renderInt, if_pos hneg]
  · rw [renderInt, if_neg hneg]
    exact renderNat_ne_nil z.toNat

theorem jsNumberOf_renderInt (z : ℤ) : jsNumberOf (renderInt z) = some z := by
  rw [jsNumberOf, if_neg (renderInt_ne_nil z), parseNumberZ_renderInt]

theorem renderInt_chars (z : ℤ) : ∀ c ∈ renderInt z, c ∈ digitChars ∨ c = '-' := by
  intro c hc
  by_cases hneg : z < 0
  · rw [renderInt, if_pos hneg] at hc
    rcases List.mem_cons.mp hc with hc | hc
    · right; exact hc
    · exact Or.inl (renderNat_digits _ c hc)
  · rw [renderInt, if_neg hneg] at hc
    exact Or.inl (renderNat_digits _ c hc)

/-! ## Lemmas about trimming, line splitting, and delimiter search -/

theorem dropWhile_eq_self_of_head (p : Char → Bool) (s : List Char)
    (h : ∀ c, s.head? = some c → p c = false) : s.dropWhile p = s := by
  rcases s with _ | ⟨c, rest⟩
  · rfl
  · rw [List.dropWhile_cons, if_neg (by rw [h c rfl]; simp)]

theorem jsTrim_of_ends (s : List Char)
    (h1 : ∀ c, s.head? = some c → isWsChar c = false)
    (h2 : ∀ c, s.getLast? = some c → isWsChar c = false) :
    jsTrim s = s := by
  rw [jsTrim, dropWhile_eq_self_of_head _ _ h1, dropWhile_eq_self_of_head, List.reverse_reverse]
  intro c hc
  rw [List.head?_reverse] at hc
  exact h2 c hc

theorem jsTrim_cons_space (s : List Char) : jsTrim (' ' :: s) = jsTrim s := by
  rw [jsTrim, jsTrim, List.dropWhile_cons, if_pos (by decide)]

theorem splitLinesAux_append (l : List Char) (h : '\n' ∉ l) :
    ∀ (s cur : List Char), splitLinesAux (l ++ s) cur = splitLinesAux s (l.reverse ++ cur) := by
  induction l with
  | nil => intro s cur; simp
  | cons c rest ih =>
    intro s cur
    have hc : c ≠ '\n' := fun hcn => h (hcn ▸ List.mem_cons_self c rest)
    have hrest : '\n' ∉ rest := fun hr => h (List.mem_cons_of_mem c hr)
    rw [List.cons_append, splitLinesAux, if_neg (by simpa using hc), ih hrest]
    simp

theorem joinLines_singleton (l : List Char) : joinLines [l] = l := by
  simp [joinLines, List.intercalate]

theorem joinLines_cons₂ (l l' : List Char) (ls : List (List Char)) :
    joinLines (l :: l' :: ls) = l ++ '\n' :: joinLines (l' :: ls) := by
  simp [joinLines, List.intercalate, List.intersperse]

theorem splitLines_append_nl_free (l : List Char) (h : '\n' ∉ l) :
    splitLines l = [l] := by
  have haux := splitLinesAux_append l h [] []
  rw [List.append_nil] at haux
  rw [splitLines, haux, splitLinesAux]
  simp

theorem splitLines_joinLines :
    ∀ (lines : List (List Char)), lines ≠ [] → (∀ l ∈ lines, '\n' ∉ l) →
      splitLines (joinLines lines) = lines := by
  intro lines
  induction lines with
  | nil => intro h; exact absurd rfl h
  | cons l rest ih =>
    intro _ hnl
    have hl : '\n' ∉ l := hnl l (List.mem_cons_self l rest)
    rcases rest with _ | ⟨l', rest'⟩
    · rw [joinLines_singleton]
      exact splitLines_append_nl_free l hl
    · rw [joinLines_cons₂, splitLines, splitLinesAux_append l hl, List.append_nil,
        splitLinesAux, if_pos rfl, List.reverse_reverse]
      have hrec := ih (by simp) (fun x hx => hnl x (List.mem_cons_of_mem l hx))
      rw [splitLines] at hrec
      rw [hrec]

theorem splitFirstColonAux_key (k : List Char) (hk : ':' ∉ k) :
    ∀ (rest acc : List Char),
      splitFirstColonAux (k ++ ':' :: rest) acc =
        some ((acc.reverse ++ k, rest) : List Char × List Char) := by
  induction k with
  | nil => intro rest acc; simp [splitFirstColonAux]
  | cons c krest ih =>
    intro rest acc
    have hc : c ≠ ':' := fun hcn => hk (hcn ▸ List.mem_cons_self c krest)
    have hkrest : ':' ∉ krest := fun hr => hk (List.mem_cons_of_mem c hr)
    rw [List.cons_append, splitFirstColonAux, if_neg (by simpa using hc), ih hkrest]
    simp

theorem splitFirstColon_key (k rest : List Char) (hk : ':' ∉ k) :
    splitFirstColon (k ++ ':' :: rest) = some (k, rest) := by
  rw [splitFirstColon, splitFirstColonAux_key k hk]
  simp

theorem startsWith_append (p t : List Char) : startsWith p (p ++ t) = true := by
  induction p with
  | nil => rfl
  | cons c rest ih => simp [startsWith, ih]

theorem startsWith_cons_ne (p : Char) (ps : List Char) (c : Char) (cs : List Char)
    (h : c ≠ p) : startsWith (p :: ps) (c :: cs) = false := by
  have hd : decide (p = c) = false := decide_eq_false (fun hpc => h hpc.symm)
  show (decide (p = c) && startsWith ps cs) = false
  rw [hd]
  simp

theorem breakOnSub_append_no_nl (pat l : List Char) (hp : ∃ p', pat = '\n' :: p')
    (h : '\n' ∉ l) (s : List Char) :
    breakOnSub pat (l ++ s) =
      (breakOnSub pat s).map (fun p => ((l ++ p.1, p.2) : List Char × List Char)) := by
  induction l with
  | nil =>
    simp only [List.nil_append]
    rcases breakOnSub pat s with _ | p <;> simp
  | cons c rest ih =>
    obtain ⟨p', hp'⟩ := hp
    have hc : c ≠ '\n' := fun hcn => h (hcn ▸ List.mem_cons_self c rest)
    have hrest : '\n' ∉ rest := fun hr => h (List.mem_cons_of_mem c hr)
    rw [List.cons_append, breakOnSub, hp', startsWith_cons_ne _ _ _ _ hc]
    simp only [Bool.false_eq_true, if_false, ← hp', ih hrest]
    rcases breakOnSub pat s with _ | p <;> simp

theorem breakOnSub_self (pat t : List Char) (hp : pat ≠ []) :
    breakOnSub pat (pat ++ t) = some ([], t) := by
  rcases pat with _ | ⟨c, rest⟩
  · exact absurd rfl hp
  · rw [List.cons_append, breakOnSub,
      if_pos (by rw [← List.cons_append]; exact startsWith_append _ t)]
    rw [← List.cons_append, List.drop_left]

/-- A header line is good when it is nonempty, contains no newline, and does
not start with a dash. -/
def goodLine (l : List Char) : Prop :=
  '\n' ∉ l ∧ ∃ c cs, l = c :: cs ∧ c ≠ '-'

theorem head_ne_dash_startsWith (x : List Char) (h : x.head? ≠ some '-') :
    startsWith ('\n' :: fmDelim) ('\n' :: x) = false := by
  rcases x with _ | ⟨c, rest⟩
  · rfl
  · have hc : c ≠ '-' := fun hcn => h (by rw [hcn, List.head?_cons])
    show (decide (('\n' : Char) = '\n') && startsWith fmDelim (c :: rest)) = false
    have : startsWith fmDelim (c :: rest) = false := startsWith_cons_ne '-' ['-', '-'] c rest hc
    rw [this]
    simp

theorem joinLines_cons_head (l : List Char) (rest : List (List Char)) :
    ∃ t, joinLines (l :: rest) = l ++ t := by
  rcases rest with _ | ⟨l', rest'⟩
  · exact ⟨[], by rw [joinLines_singleton, List.append_nil]⟩
  · exact ⟨'\n' :: joinLines (l' :: rest'), joinLines_cons₂ l l' rest'⟩

theorem joined_head_ne_dash (lines : List (List Char)) (hne : lines ≠ [])
    (hgood : ∀ l ∈ lines, goodLine l) (z : List Char) :
    (joinLines lines ++ z).head? ≠ some '-' := by
  rcases lines with _ | ⟨l, rest⟩
  · exact absurd rfl hne
  · obtain ⟨c, cs, hl, hc⟩ := (hgood l (List.mem_cons_self l rest)).2
    obtain ⟨t, ht⟩ := joinLines_cons_head l rest
    rw [ht, hl]
    simpa using fun hcn => hc hcn

theorem breakOnSub_joined :
    ∀ (lines : List (List Char)), lines ≠ [] → (∀ l ∈ lines, goodLine l) →
      ∀ z, breakOnSub ('\n' :: fmDelim) (joinLines lines ++ '\n' :: fmDelim ++ z) =
        some (joinLines lines, z) := by
  intro lines
  induction lines with
  | nil => intro h; exact absurd rfl h
  | cons l rest ih =>
    intro _ hgood z
    have hl : '\n' ∉ l := (hgood l (List.mem_cons_self l rest)).1
    rcases rest with _ | ⟨l', rest'⟩
    · rw [joinLines_singleton, List.append_assoc,
        breakOnSub_append_no_nl _ _ ⟨fmDelim, rfl⟩ hl,
        breakOnSub_self _ _ (by simp)]
      simp [joinLines_singleton]
    · have hrest_ne : (l' :: rest') ≠ ([] : List (List Char)) := by simp
      have hrest_good : ∀ x ∈ l' :: rest', goodLine x :=
        fun x hx => hgood x (List.mem_cons_of_mem l hx)
      rw [joinLines_cons₂]
      have hassoc : (l ++ '\n' :: joinLines (l' :: rest')) ++ '\n' :: fmDelim ++ z =
          l ++ ('\n' :: (joinLines (l' :: rest') ++ ('\n' :: fmDelim ++ z))) := by
        simp
      have hhd : (joinLines (l' :: rest') ++ ('\n' :: fmDelim ++ z)).head? ≠ some '-' :=
        joined_head_ne_dash _ hrest_ne hrest_good _
      rw [hassoc, breakOnSub_append_no_nl _ _ ⟨fmDelim, rfl⟩ hl, breakOnSub,
        if_neg (by rw [head_ne_dash_startsWith _ hhd]; simp)]
      have hrec := ih hrest_ne hrest_good z
      rw [show joinLines (l' :: rest') ++ ('\n' :: fmDelim ++ z) =
        joinLines (l' :: rest') ++ '\n' :: fmDelim ++ z from by simp, hrec]
      simp

/-! ## Round-trip lemmas for the document codec -/

/-- Keys the codec round-trips: nonempty, not starting with a dash, and free
of colons and whitespace.  All frontmatter keys the writer emits satisfy
this. -/
def goodKeyP (k : String) : Prop :=
  (∃ c cs, k.data = c :: cs ∧ c ≠ '-') ∧ ∀ c ∈ k.data, c ≠ ':' ∧ isWsChar c = false

/-- Values the codec round-trips: strings must be newline-free (integers and
booleans always round-trip). -/
def goodValP : FmValue → Prop
  | .vStr s => '\n' ∉ s.data
  | .vInt _ => True
  | .vBool _ => True

theorem mem_of_head?_eq {α : Type} {l : List α} {c : α} (h : l.head? = some c) : c ∈ l := by
  cases l with
  | nil => simp at h
  | cons a rest =>
    simp only [List.head?_cons, Option.some.injEq] at h
    exact h ▸ List.mem_cons_self a rest

theorem ws_ne_nl {c : Char} (h : isWsChar c = false) : c ≠ '\n' := by
  intro hc
  rw [hc] at h
  simp [isWsChar] at h

theorem renderFmValue_no_nl (v : FmValue) (hv : goodValP v) : '\n' ∉ renderFmValue v := by
  intro hmem
  cases v with
  | vStr s =>
    simp only [renderFmValue] at hmem
    rcases List.mem_cons.mp hmem with h | h
    · simp at h
    · rcases List.mem_append.mp h with h | h
      · exact hv h
      · simp at h
  | vInt n =>
    rcases renderInt_chars n '\n' hmem with h | h
    · exact absurd (digit_not_ws h) (by decide)
    · simp at h
  | vBool b =>
    cases b <;> simp_all [renderFmValue]

theorem jsTrim_renderInt (n : ℤ) : jsTrim (renderInt n) = renderInt n := by
  refine jsTrim_of_ends _ ?_ ?_
  · intro c hc
    rcases renderInt_chars n c (mem_of_head?_eq hc) with h | h
    · exact digit_not_ws h
    · rw [h]; decide
  · intro c hc
    rcases renderInt_chars n c (mem_of_getLast?_eq hc) with h | h
    · exact digit_not_ws h
    · rw [h]; decide

theorem parseFmValue_renderInt (n : ℤ) : parseFmValue (renderInt n) = .vInt n := by
  rw [parseFmValue, if_neg, jsNumberOf_renderInt]
  intro ⟨hhead, _⟩
  rcases renderInt_chars n '"' (mem_of_head?_eq hhead) with h | h
  · exact absurd h (by decide)
  · simp at h

theorem getLast?_quoted (s : String) :
    (('"' : Char) :: s.data ++ ['"']).getLast? = some '"' := by
  rw [List.getLast?_concat]

theorem parseFmValue_quoted (s : String) : parseFmValue ('"' :: s.data ++ ['"']) = .vStr s := by
  rw [parseFmValue, if_pos ⟨rfl, getLast?_quoted s⟩]
  simp

/-- Parsing the serialized form of a good value, after the decoder's trim of
the `' '`-prefixed tail, recovers the value. -/
theorem parseFmValue_round (v : FmValue) (hv : goodValP v) :
    parseFmValue (jsTrim (' ' :: renderFmValue v)) = v := by
  rw [jsTrim_cons_space]
  cases v with
  | vStr s =>
    show parseFmValue (jsTrim ('"' :: s.data ++ ['"'])) = .vStr s
    have htrim : jsTrim ('"' :: s.data ++ ['"']) = '"' :: s.data ++ ['"'] := by
      refine jsTrim_of_ends _ ?_ ?_
      · intro c hc
        simp only [List.cons_append, List.head?_cons, Option.some.injEq] at hc
        rw [← hc]; decide
      · intro c hc
        rw [getLast?_quoted s, Option.some.injEq] at hc
        rw [← hc]; decide
    rw [htrim]
    exact parseFmValue_quoted s
  | vInt n =>
    show parseFmValue (jsTrim (renderInt n)) = .vInt n
    rw [jsTrim_renderInt]
    exact parseFmValue_renderInt n
  | vBool b =>
    cases b <;> decide

theorem goodKey_no_colon (k : String) (hk : goodKeyP k) : ':' ∉ k.data :=
  fun hc => (hk.2 ':' hc).1 rfl

theorem jsTrim_goodKey (k : String) (hk : goodKeyP k) : jsTrim k.data = k.data := by
  refine jsTrim_of_ends _ ?_ ?_
  · intro c hc
    exact (hk.2 c (mem_of_head?_eq hc)).2
  · intro c hc
    exact (hk.2 c (mem_of_getLast?_eq hc)).2

/-- Decoding an encoded line recovers the key–value pair. -/
theorem decodeLine_encodeLine (kv : String × FmValue)
    (hk : goodKeyP kv.1) (hv : goodValP kv.2) :
    decodeLine (encodeLine kv) = some kv := by
  have hsplit : splitFirstColon (encodeLine kv) =
      some (kv.1.data, ' ' :: renderFmValue kv.2) := by
    rw [encodeLine]
    exact splitFirstColon_key kv.1.data (' ' :: renderFmValue kv.2) (goodKey_no_colon kv.1 hk)
  rw [decodeLine, hsplit]
  show (if kv.1.data = [] then none
    else some (String.mk (jsTrim kv.1.data), parseFmValue (jsTrim (' ' :: renderFmValue kv.2))))
    = some kv
  obtain ⟨c, cs, hdata, hc⟩ := hk.1
  rw [if_neg (by rw [hdata]; simp), jsTrim_goodKey kv.1 hk, parseFmValue_round kv.2 hv]

/-- An encoded line of a good pair is a good line. -/
theorem goodLine_encodeLine (kv : String × FmValue)
    (hk : goodKeyP kv.1) (hv : goodValP kv.2) : goodLine (encodeLine kv) := by
  obtain ⟨⟨c, cs, hdata, hc⟩, hchars⟩ := hk
  constructor
  · intro hmem
    rw [encodeLine] at hmem
    rcases List.mem_append.mp hmem with h | h
    · exact ws_ne_nl (hchars '\n' h).2 rfl
    · rcases List.mem_cons.mp h with h | h
      · simp at h
      · rcases List.mem_cons.mp h with h | h
        · simp at h
        · exact renderFmValue_no_nl kv.2 hv h
  · refine ⟨c, cs ++ ':' :: ' ' :: renderFmValue kv.2, ?_, hc⟩
    rw [encodeLine, hdata]
    simp

/-- The JS object built by assigning the pairs of a list in order. -/
def jsObjFromList (fm : Frontmatter) : Frontmatter :=
  fm.foldl (fun acc kv => jsSetKey acc kv.1 kv.2) []

theorem decodeHeader_encodeHeader (fm : Frontmatter) (hne : fm ≠ [])
    (hgood : ∀ kv ∈ fm, goodKeyP kv.1 ∧ goodValP kv.2) :
    decodeHeader (encodeHeader fm) = jsObjFromList fm := by
  rw [decodeHeader, encodeHeader, splitLines_joinLines]
  · rw [jsObjFromList]
    have : ∀ (l : Frontmatter) (acc : Frontmatter), (∀ kv ∈ l, goodKeyP kv.1 ∧ goodValP kv.2) →
        (l.map encodeLine).foldl
          (fun acc line => match decodeLine line with
            | some kv => jsSetKey acc kv.1 kv.2
            | none => acc) acc =
        l.foldl (fun acc kv => jsSetKey acc kv.1 kv.2) acc := by
      intro l
      induction l with
      | nil => intro acc _; rfl
      | cons kv rest ih =>
        intro acc hg
        have hkv := hg kv (List.mem_cons_self kv rest)
        simp only [List.map_cons, List.foldl_cons,
          decodeLine_encodeLine kv hkv.1 hkv.2]
        exact ih _ (fun x hx => hg x (List.mem_cons_of_mem kv hx))
    exact this fm [] hgood
  · simpa using hne
  · intro l hl
    rw [List.mem_map] at hl
    obtain ⟨kv, hkv, hline⟩ := hl
    have hg := hgood kv hkv
    exact hline ▸ (goodLine_encodeLine kv hg.1 hg.2).1

theorem jsSetKey_fresh (acc : Frontmatter) (k : String) (v : FmValue)
    (h : ∀ p ∈ acc, p.1 ≠ k) : jsSetKey acc k v = acc ++ [(k, v)] := by
  rw [jsSetKey, if_neg]
  intro hany
  rw [List.any_eq_true] at hany
  obtain ⟨p, hp, hpk⟩ := hany
  exact h p hp (of_decide_eq_true hpk)

theorem foldl_jsSetKey_fresh :
    ∀ (fm acc : Frontmatter), (∀ kv ∈ fm, ∀ p ∈ acc, p.1 ≠ kv.1) →
      (fm.map Prod.fst).Nodup →
      fm.foldl (fun acc kv => jsSetKey acc kv.1 kv.2) acc = acc ++ fm := by
  intro fm
  induction fm with
  | nil => intro acc _ _; simp
  | cons kv rest ih =>
    intro acc hfresh hnodup
    rw [List.foldl_cons, jsSetKey_fresh _ _ _ (hfresh kv (List.mem_cons_self kv rest))]
    rw [List.map_cons, List.nodup_cons] at hnodup
    have := ih (acc ++ [(kv.1, kv.2)])
      (fun x hx p hp => by
        rcases List.mem_append.mp hp with h | h
        · exact hfresh x (List.mem_cons_of_mem kv hx) p h
        · rcases List.mem_singleton.mp h with rfl
          intro hpk
          exact hnodup.1 (hpk ▸ List.mem_map_of_mem Prod.fst hx))
      hnodup.2
    rw [this]
    simp

theorem jsObjFromList_nodup (fm : Frontmatter) (h : (fm.map Prod.fst).Nodup) :
    jsObjFromList fm = fm := by
  rw [jsObjFromList, foldl_jsSetKey_fresh fm [] (by simp) h]
  simp

/-- Round trip of a document with a good, nonempty frontmatter: decoding what
the codec encoded recovers the frontmatter assignments (in JS object form). -/
theorem decodeDoc_encodeDoc (fm : Frontmatter) (body : List Char) (hne : fm ≠ [])
    (hgood : ∀ kv ∈ fm, goodKeyP kv.1 ∧ goodValP kv.2) :
    decodeDoc (encodeDoc fm body) = some (jsObjFromList fm) := by
  have hshape : encodeDoc fm body =
      (fmDelim ++ ['\n']) ++
        (encodeHeader fm ++ '\n' :: fmDelim ++ ('\n' :: '\n' :: body)) := by
    rw [encodeDoc]
    simp
  have hlines_ne : fm.map encodeLine ≠ [] := by simpa using hne
  have hlines_good : ∀ l ∈ fm.map encodeLine, goodLine l := by
    intro l hl
    rw [List.mem_map] at hl
    obtain ⟨kv, hkv, hline⟩ := hl
    have hg := hgood kv hkv
    exact hline ▸ goodLine_encodeLine kv hg.1 hg.2
  rw [decodeDoc, extractHeaderBlock, hshape, if_pos (startsWith_append _ _)]
  have hdrop : ((fmDelim ++ ['\n']) ++
      (encodeHeader fm ++ '\n' :: fmDelim ++ ('\n' :: '\n' :: body))).drop 4 =
      encodeHeader fm ++ '\n' :: fmDelim ++ ('\n' :: '\n' :: body) := by
    have h4 : (fmDelim ++ ['\n']).length = 4 := by decide
    rw [← h4, List.drop_left]
  rw [hdrop, show (encodeHeader fm : List Char) = joinLines (fm.map encodeLine) from rfl,
    breakOnSub_joined (fm.map encodeLine) hlines_ne hlines_good ('\n' :: '\n' :: body)]
  simp only [Option.map_some']
  rw [← encodeHeader, decodeHeader_encodeHeader fm hne hgood]

/-! ## Character-set facts about the rendered date strings -/

theorem pad2_chars (n : ℕ) : ∀ c ∈ pad2 n, c ∈ digitChars := by
  intro c hc
  rw [pad2] at hc
  by_cases h : n < 10
  · rw [if_pos h] at hc
    rcases List.mem_cons.mp hc with h' | h'
    · rw [h']; decide
    · exact renderNat_digits n c h'
  · rw [if_neg h] at hc
    exact renderNat_digits n c hc

theorem pad4_chars (n : ℕ) : ∀ c ∈ pad4 n, c ∈ digitChars := by
  intro c hc
  rw [pad4] at hc
  by_cases h1 : n < 10
  · rw [if_pos h1] at hc
    rcases List.mem_cons.mp hc with h' | h'
    · rw [h']; decide
    rcases List.mem_cons.mp h' with h'' | h''
    · rw [h'']; decide
    rcases List.mem_cons.mp h'' with h3 | h3
    · rw [h3]; decide
    exact renderNat_digits n c h3
  · rw [if_neg h1] at hc
    by_cases h2 : n < 100
    · rw [if_pos h2] at hc
      rcases List.mem_cons.mp hc with h' | h'
      · rw [h']; decide
      rcases List.mem_cons.mp h' with h'' | h''
      · rw [h'']; decide
      exact renderNat_digits n c h''
    · rw [if_neg h2] at hc
      by_cases h3 : n < 1000
      · rw [if_pos h3] at hc
        rcases List.mem_cons.mp hc with h' | h'
        · rw [h']; decide
        exact renderNat_digits n c h'
      · rw [if_neg h3] at hc
        exact renderNat_digits n c hc

theorem renderYear_chars (y : ℤ) : ∀ c ∈ renderYear y, c ∈ digitChars ∨ c = '-' := by
  intro c hc
  rw [renderYear] at hc
  by_cases h : y < 0
  · rw [if_pos h] at hc
    rcases List.mem_cons.mp hc with h' | h'
    · exact Or.inr h'
    · exact Or.inl (pad4_chars _ c h')
  · rw [if_neg h] at hc
    exact Or.inl (pad4_chars _ c hc)

theorem isoDateChars_chars (m : ℤ) : ∀ c ∈ isoDateChars m, c ∈ digitChars ∨ c = '-' := by
  rw [isoDateChars]
  simp only [List.forall_mem_append, List.forall_mem_cons]
  exact ⟨⟨renderYear_chars _, Or.inr trivial, fun c hc => Or.inl (pad2_chars _ c hc)⟩,
    Or.inr trivial, fun c hc => Or.inl (pad2_chars _ c hc)⟩

theorem isoDateChars_ne_nl (m : ℤ) : ∀ c ∈ isoDateChars m, c ≠ '\n' := by
  intro c hc
  rcases isoDateChars_chars m c hc with h | h
  · exact ws_ne_nl (digit_not_ws h)
  · rw [h]; decide

theorem isoDateChars_no_nl (m : ℤ) : '\n' ∉ isoDateChars m :=
  fun hmem => isoDateChars_ne_nl m '\n' hmem rfl

theorem isoDateTimeChars_no_nl (m : ℤ) : '\n' ∉ isoDateTimeChars m := by
  have hall : ∀ c ∈ isoDateTimeChars m, c ≠ '\n' := by
    rw [isoDateTimeChars]
    simp only [List.forall_mem_append, List.forall_mem_cons]
    refine ⟨⟨⟨isoDateChars_ne_nl m, by decide,
      fun c hc => ws_ne_nl (digit_not_ws (pad2_chars _ c hc))⟩, by decide,
      fun c hc => ws_ne_nl (digit_not_ws (pad2_chars _ c hc))⟩, ?_⟩
    decide
  exact fun hmem => hall '\n' hmem rfl

/-! ## Membership facts about the accumulation objects -/

theorem insertValueDesc_mem {α : Type} (p x : α × ℤ) (l : List (α × ℤ)) :
    x ∈ insertValueDesc p l ↔ x = p ∨ x ∈ l := by
  induction l with
  | nil => simp [insertValueDesc]
  | cons q rest ih =>
    rw [insertValueDesc]
    by_cases h : p.2 < q.2
    · rw [if_pos h]
      simp only [List.mem_cons, ih]
      tauto
    · rw [if_neg h]
      simp only [List.mem_cons]

theorem sortValueDesc_mem {α : Type} (x : α × ℤ) (l : List (α × ℤ)) :
    x ∈ sortValueDesc l ↔ x ∈ l := by
  induction l with
  | nil => simp [sortValueDesc]
  | cons p rest ih =>
    rw [sortValueDesc, insertValueDesc_mem, ih]
    simp

theorem bumpEntry_key {α : Type} [DecidableEq α] (acc : List (α × ℤ)) (k : α) (v : ℤ)
    (p : α × ℤ) (hp : p ∈ bumpEntry acc k v) : p.1 = k ∨ ∃ q ∈ acc, p.1 = q.1 := by
  rw [bumpEntry] at hp
  split at hp
  · rw [List.mem_map] at hp
    obtain ⟨q, hq, hpq⟩ := hp
    right
    refine ⟨q, hq, ?_⟩
    by_cases h : q.1 = k
    · rw [if_pos h] at hpq
      rw [← hpq]
    · rw [if_neg h] at hpq
      rw [← hpq]
  · rcases List.mem_append.mp hp with h | h
    · exact Or.inr ⟨p, h, rfl⟩
    · left
      rcases List.mem_singleton.mp h with rfl
      rfl

theorem foldl_bump_key {α : Type} [DecidableEq α] (f : AnalyticsData → α) :
    ∀ (l : List AnalyticsData) (acc : List (α × ℤ)) (p : α × ℤ),
      p ∈ l.foldl (fun a r => bumpEntry a (f r) r.value) acc →
      (∃ q ∈ acc, p.1 = q.1) ∨ ∃ r ∈ l, p.1 = f r := by
  intro l
  induction l with
  | nil => intro acc p hp; exact Or.inl ⟨p, hp, rfl⟩
  | cons r rest ih =>
    intro acc p hp
    rw [List.foldl_cons] at hp
    rcases ih _ p hp with h | h
    · obtain ⟨q, hq, hpq⟩ := h
      rcases bumpEntry_key acc (f r) r.value q hq with h' | h'
      · exact Or.inr ⟨r, List.mem_cons_self r rest, hpq.trans h'⟩
      · obtain ⟨q', hq', hqq'⟩ := h'
        exact Or.inl ⟨q', hq', hpq.trans hqq'⟩
    · obtain ⟨r', hr', hpr'⟩ := h
      exact Or.inr ⟨r', List.mem_cons_of_mem r hr', hpr'⟩

theorem dailyTotals_key_day (data : List AnalyticsData) (p : String × ℤ)
    (hp : p ∈ dailyTotals data) : ∃ r ∈ data, p.1 = recordDay r := by
  rcases foldl_bump_key recordDay data [] p hp with h | h
  · obtain ⟨q, hq, _⟩ := h
    simp at hq
  · exact h

theorem peakDay_cases (data : List AnalyticsData) :
    peakDay data = "" ∨ ∃ r ∈ data, peakDay data = recordDay r := by
  rw [peakDay]
  rcases hhead : (sortValueDesc (dailyTotals data)).head? with _ | p
  · exact Or.inl rfl
  · right
    have hmem : p ∈ dailyTotals data :=
      (sortValueDesc_mem p _).mp (mem_of_head?_eq hhead)
    obtain ⟨r, hr, hpr⟩ := dailyTotals_key_day data p hmem
    exact ⟨r, hr, hpr⟩

/-! ## Goodness of the frontmatter the writer emits -/

theorem dayKey_no_nl (t : ℤ) : '\n' ∉ (dayKey t).data := isoDateChars_no_nl t

theorem peakDay_no_nl (data : List AnalyticsData) : '\n' ∉ (peakDay data).data := by
  rcases peakDay_cases data with h | ⟨r, _, h⟩
  · rw [h]; simp
  · rw [h]; exact dayKey_no_nl r.timestamp

theorem buildFrontmatter_nil (tz now : ℤ) (ty : Category) (year : ℤ) (month : ℕ)
    (data : List AnalyticsData) :
    buildFrontmatter tz now ty year month data [] =
      [("type", .vStr ty.str),
       ("year", .vInt year),
       ("month", .vInt month),
       ("totalCount", .vInt (totalCount data)),
       ("uniqueCount", .vInt (uniqueDays data)),
       ("averageDaily", .vInt (averageDaily data)),
       ("peakDay", .vStr (peakDay data)),
       ("peakHour", .vInt (peakHour tz data)),
       ("lastUpdated", .vStr (String.mk (isoDateTimeChars now)))] := rfl

theorem buildFrontmatter_nil_good (tz now : ℤ) (ty : Category) (year : ℤ) (month : ℕ)
    (data : List AnalyticsData) :
    ∀ kv ∈ buildFrontmatter tz now ty year month data [],
      goodKeyP kv.1 ∧ goodValP kv.2 := by
  intro kv hkv
  rw [buildFrontmatter_nil] at hkv
  simp only [List.mem_cons, List.not_mem_nil, or_false] at hkv
  rcases hkv with rfl | rfl | rfl | rfl | rfl | rfl | rfl | rfl | rfl
  · show goodKeyP "type" ∧ goodValP (.vStr ty.str)
    refine ⟨⟨⟨'t', "ype".data, rfl, by decide⟩, by decide⟩, ?_⟩
    cases ty
    · show '\n' ∉ ("page-views" : String).data
      decide
    · show '\n' ∉ ("events" : String).data
      decide
    · show '\n' ∉ ("user-activity" : String).data
      decide
  · show goodKeyP "year" ∧ goodValP (.vInt year)
    exact ⟨⟨⟨'y', "ear".data, rfl, by decide⟩, by decide⟩, trivial⟩
  · show goodKeyP "month" ∧ goodValP (.vInt month)
    exact ⟨⟨⟨'m', "onth".data, rfl, by decide⟩, by decide⟩, trivial⟩
  · show goodKeyP "totalCount" ∧ goodValP (.vInt (totalCount data))
    exact ⟨⟨⟨'t', "otalCount".data, rfl, by decide⟩, by decide⟩, trivial⟩
  · show goodKeyP "uniqueCount" ∧ goodValP (.vInt (uniqueDays data))
    exact ⟨⟨⟨'u', "niqueCount".data, rfl, by decide⟩, by decide⟩, trivial⟩
  · show goodKeyP "averageDaily" ∧ goodValP (.vInt (averageDaily data))
    exact ⟨⟨⟨'a', "verageDaily".data, rfl, by decide⟩, by decide⟩, trivial⟩
  · show goodKeyP "peakDay" ∧ goodValP (.vStr (peakDay data))
    exact ⟨⟨⟨'p', "eakDay".data, rfl, by decide⟩, by decide⟩, peakDay_no_nl data⟩
  · show goodKeyP "peakHour" ∧ goodValP (.vInt (peakHour tz data))
    exact ⟨⟨⟨'p', "eakHour".data, rfl, by decide⟩, by decide⟩, trivial⟩
  · show goodKeyP "lastUpdated" ∧ goodValP (.vStr (String.mk (isoDateTimeChars now)))
    exact ⟨⟨⟨'l', "astUpdated".data, rfl, by decide⟩, by decide⟩, isoDateTimeChars_no_nl now⟩

/-! ## Basic aggregate lemmas -/

theorem foldl_add_value (data : List AnalyticsData) :
    ∀ a : ℤ, data.foldl (fun s r => s + r.value) a = a + (data.map AnalyticsData.value).sum := by
  induction data with
  | nil => intro a; simp
  | cons r rest ih =>
    intro a
    rw [List.foldl_cons, ih]
    simp [add_assoc]

theorem totalCount_eq_sum (data : List AnalyticsData) :
    totalCount data = (data.map AnalyticsData.value).sum := by
  rw [totalCount, foldl_add_value]
  simp

theorem uniqueDays_eq_card (data : List AnalyticsData) :
    uniqueDays data = (data.map recordDay).toFinset.card := by
  rw [uniqueDays, List.card_toFinset]

theorem buildFrontmatter_nil_ne_nil (tz now : ℤ) (ty : Category) (year : ℤ) (month : ℕ)
    (data : List AnalyticsData) : buildFrontmatter tz now ty year month data [] ≠ [] := by
  rw [buildFrontmatter_nil]
  simp

theorem buildFrontmatter_nil_keys (tz now : ℤ) (ty : Category) (year : ℤ) (month : ℕ)
    (data : List AnalyticsData) :
    (buildFrontmatter tz now ty year month data []).map Prod.fst =
      ["type", "year", "month", "totalCount", "uniqueCount", "averageDaily",
       "peakDay", "peakHour", "lastUpdated"] := rfl

theorem buildFrontmatter_nil_nodup (tz now : ℤ) (ty : Category) (year : ℤ) (month : ℕ)
    (data : List AnalyticsData) :
    ((buildFrontmatter tz now ty year month data []).map Prod.fst).Nodup := by
  rw [buildFrontmatter_nil_keys]
  decide

/-- Decoding a document the writer encoded (with no caller overrides)
recovers the written frontmatter exactly. -/
theorem decodeDoc_write_round (tz now : ℤ) (ty : Category) (year : ℤ) (month : ℕ)
    (data : List AnalyticsData) (body : List Char) :
    decodeDoc (encodeDoc (buildFrontmatter tz now ty year month data []) body) =
      some (buildFrontmatter tz now ty year month data []) := by
  rw [decodeDoc_encodeDoc _ body (buildFrontmatter_nil_ne_nil tz now ty year month data)
    (buildFrontmatter_nil_good tz now ty year month data),
    jsObjFromList_nodup _ (buildFrontmatter_nil_nodup tz now ty year month data)]

/-! ## Claim theorems -/

/-- C3: for every record list and every category, year and month, writing an
aggregate with `writeAnalyticsToMDsveX` and reading the same file back with
`readAnalyticsFromMDsveX` yields a frontmatter whose scalar fields `type`,
`year`, `month`, `totalCount` and `uniqueCount` are identical to those that
were written. -/
theorem C3_write_read_round_trip (env : FsEnv) (tz now : ℤ) (ty : Category)
    (year : ℤ) (month : ℕ) (data : List AnalyticsData) (body : List Char)
    (hread : env.readFile ty year month =
      .ok (encodeDoc (buildFrontmatter tz now ty year month data []) body)) :
    ∃ fm, readAnalyticsFromMDsveX env ty year month = .ok (some fm) ∧
      fm.lookup "type" = (buildFrontmatter tz now ty year month data []).lookup "type" ∧
      fm.lookup "year" = (buildFrontmatter tz now ty year month data []).lookup "year" ∧
      fm.lookup "month" = (buildFrontmatter tz now ty year month data []).lookup "month" ∧
      fm.lookup "totalCount" =
        (buildFrontmatter tz now ty year month data []).lookup "totalCount" ∧
      fm.lookup "uniqueCount" =
        (buildFrontmatter tz now ty year month data []).lookup "uniqueCount" ∧
      fm.lookup "type" = some (.vStr ty.str) ∧
      fm.lookup "year" = some (.vInt year) ∧
      fm.lookup "month" = some (.vInt month) ∧
      fm.lookup "totalCount" = some (.vInt (totalCount data)) ∧
      fm.lookup "uniqueCount" = some (.vInt (uniqueDays data)) := by
  refine ⟨buildFrontmatter tz now ty year month data [], ?_, rfl, rfl, rfl, rfl, rfl,
    rfl, rfl, rfl, rfl, rfl⟩
  rw [readAnalyticsFromMDsveX, hread]
  show Except.ok (decodeDoc (encodeDoc (buildFrontmatter tz now ty year month data []) body))
    = Except.ok (some (buildFrontmatter tz now ty year month data []))
  rw [decodeDoc_write_round]

/-- C3 witness: the round trip at a concrete environment and record list. -/
theorem C3_write_read_round_trip_witness :
    ∃ fm, readAnalyticsFromMDsveX
        { readFile := fun _ _ _ =>
            .ok (encodeDoc (buildFrontmatter 0 29455170 .pageViews 2026 1
              [⟨29460240, 100⟩, ⟨29467470, 50⟩] []) ['b']),
          writeFile := fun _ _ _ _ => .ok (),
          renderBody := fun _ => [] }
        .pageViews 2026 1 = .ok (some fm) ∧
      fm.lookup "type" = (buildFrontmatter 0 29455170 .pageViews 2026 1
        [⟨29460240, 100⟩, ⟨29467470, 50⟩] []).lookup "type" ∧
      fm.lookup "year" = (buildFrontmatter 0 29455170 .pageViews 2026 1
        [⟨29460240, 100⟩, ⟨29467470, 50⟩] []).lookup "year" ∧
      fm.lookup "month" = (buildFrontmatter 0 29455170 .pageViews 2026 1
        [⟨29460240, 100⟩, ⟨29467470, 50⟩] []).lookup "month" ∧
      fm.lookup "totalCount" = (buildFrontmatter 0 29455170 .pageViews 2026 1
        [⟨29460240, 100⟩, ⟨29467470, 50⟩] []).lookup "totalCount" ∧
      fm.lookup "uniqueCount" = (buildFrontmatter 0 29455170 .pageViews 2026 1
        [⟨29460240, 100⟩, ⟨29467470, 50⟩] []).lookup "uniqueCount" ∧
      fm.lookup "type" = some (.vStr "page-views") ∧
      fm.lookup "year" = some (.vInt 2026) ∧
      fm.lookup "month" = some (.vInt 1) ∧
      fm.lookup "totalCount" = some (.vInt 150) ∧
      fm.lookup "uniqueCount" = some (.vInt 2) := by
  obtain ⟨fm, h1, h2, h3, h4, h5, h6, h7, h8, h9, h10, h11⟩ :=
    C3_write_read_round_trip
      { readFile := fun _ _ _ =>
          .ok (encodeDoc (buildFrontmatter 0 29455170 .pageViews 2026 1
            [⟨29460240, 100⟩, ⟨29467470, 50⟩] []) ['b']),
        writeFile := fun _ _ _ _ => .ok (),
        renderBody := fun _ => [] }
      0 29455170 .pageViews 2026 1 [⟨29460240, 100⟩, ⟨29467470, 50⟩] ['b'] rfl
  exact ⟨fm, h1, h2, h3, h4, h5, h6, h7, h8, h9,
    by rw [h10]; decide, by rw [h11]; decide⟩

/-- C4: the `totalCount` field of the aggregate produced by
`writeAnalyticsToMDsveX` equals the exact sum of the `value` fields of the
input records (integer arithmetic, no drift). -/
theorem C4_totalCount_is_sum (tz now : ℤ) (ty : Category) (year : ℤ) (month : ℕ)
    (data : List AnalyticsData) :
    (buildFrontmatter tz now ty year month data []).lookup "totalCount" =
      some (.vInt ((data.map AnalyticsData.value).sum)) := by
  have h : (buildFrontmatter tz now ty year month data []).lookup "totalCount" =
      some (.vInt (totalCount data)) := rfl
  rw [h, totalCount_eq_sum]

/-- C5: the empty record list yields `uniqueCount = 0`, `averageDaily = 0`,
`peakDay = ""` and `peakHour = 0`; and for every record list, `uniqueCount`
equals the number of distinct calendar days among the records. -/
theorem C5_uniqueCount_and_empty (tz now : ℤ) (ty : Category) (year : ℤ) (month : ℕ) :
    (buildFrontmatter tz now ty year month [] []).lookup "uniqueCount" = some (.vInt 0) ∧
    (buildFrontmatter tz now ty year month [] []).lookup "averageDaily" = some (.vInt 0) ∧
    (buildFrontmatter tz now ty year month [] []).lookup "peakDay" = some (.vStr "") ∧
    (buildFrontmatter tz now ty year month [] []).lookup "peakHour" = some (.vInt 0) ∧
    ∀ data : List AnalyticsData,
      (buildFrontmatter tz now ty year month data []).lookup "uniqueCount" =
        some (.vInt ((data.map recordDay).toFinset.card)) := by
  refine ⟨rfl, rfl, rfl, rfl, ?_⟩
  intro data
  have h : (buildFrontmatter tz now ty year month data []).lookup "uniqueCount" =
      some (.vInt (uniqueDays data)) := rfl
  rw [h, uniqueDays_eq_card]

/-! ## C1: locality of the bucketing keys -/

theorem isoDateChars_congr {a b : ℤ} (h : epochDay a = epochDay b) :
    isoDateChars a = isoDateChars b := by
  rw [isoDateChars, isoDateChars, h]

/-- C1 (amended): the hour used for `peakHour` is taken from the timestamp's
local representation, but the day-bucketing key (used for `uniqueCount`,
`peakDay` and day grouping) is the UTC calendar date from `toISOString`: it
agrees with the local calendar date whenever the offset does not move the
timestamp across a UTC day boundary, and not in general. -/
theorem C1_day_key_utc_hour_local :
    (∀ tz t : ℤ, getHours tz t = specLocalHour tz t) ∧
    (∀ tz t : ℤ, epochDay (t + tz) = epochDay t → specLocalDate tz t = dayKey t) ∧
    ¬ (∀ tz t : ℤ, dayKey t = specLocalDate tz t) := by
  refine ⟨fun tz t => rfl, ?_, ?_⟩
  · intro tz t h
    rw [specLocalDate, dayKey, isoDate, isoDate, isoDateChars_congr h]
  · intro h
    have hinst := h 120 29455170
    rw [show dayKey 29455170 = "2026-01-01" from by decide,
      show specLocalDate 120 29455170 = "2026-01-02" from by decide] at hinst
    exact absurd hinst (by decide)

/-- C1 witness: a concrete offset and timestamp for which the offset stays
inside the same UTC day. -/
theorem C1_day_key_utc_hour_local_witness :
    epochDay ((29460240 : ℤ) + 30) = epochDay 29460240 ∧
    specLocalDate 30 29460240 = dayKey 29460240 :=
  ⟨by decide, C1_day_key_utc_hour_local.2.1 30 29460240 (by decide)⟩

/-- C1 counterexample: with a +120-minute offset, a record at 23:30 UTC has
UTC day key `2026-01-01` (which the code uses) while its local calendar date
is `2026-01-02`; the hour, by contrast, is local. -/
theorem C1_counterexample :
    dayKey 29455170 = "2026-01-01" ∧
    specLocalDate 120 29455170 = "2026-01-02" ∧
    dayKey 29455170 ≠ specLocalDate 120 29455170 ∧
    getHours 120 29455170 = specLocalHour 120 29455170 :=
  ⟨by decide, by decide, by decide, rfl⟩

/-! ## C7: the rounding used by `averageDaily` -/

/-- C7 (amended): `averageDaily` is `totalCount / uniqueCount` rounded to the
nearest integer with `.5` cases rounded toward positive infinity (JS
`Math.round`), which agrees with round-half-away-from-zero whenever
`totalCount` is nonnegative; it is `0` when `uniqueCount = 0`. -/
theorem C7_averageDaily_rounding (data : List AnalyticsData) :
    (uniqueDays data = 0 → averageDaily data = 0) ∧
    (0 < uniqueDays data →
      -(1 : ℚ) / 2 <
        (averageDaily data : ℚ) - (totalCount data : ℚ) / (uniqueDays data : ℚ) ∧
      (averageDaily data : ℚ) - (totalCount data : ℚ) / (uniqueDays data : ℚ) ≤ 1 / 2) ∧
    (0 < uniqueDays data → 0 ≤ totalCount data →
      averageDaily data =
        specRoundHalfAwayFromZero ((totalCount data : ℚ) / (uniqueDays data : ℚ))) := by
  refine ⟨?_, ?_, ?_⟩
  · intro h
    rw [averageDaily, if_neg (by omega)]
  · intro h
    rw [averageDaily, if_pos h, Rat.mkRat_eq_div]
    exact jsRound_dist _
  · intro h ht
    rw [averageDaily, if_pos h, Rat.mkRat_eq_div]
    refine jsRound_eq_away_of_nonneg _ (div_nonneg ?_ ?_)
    · exact_mod_cast ht
    · positivity

/-- C7 witness: two records on distinct days with total `151`; the average
`75.5` rounds to `76`. -/
theorem C7_averageDaily_rounding_witness :
    uniqueDays [⟨29460240, 100⟩, ⟨29461680, 51⟩] = 2 ∧
    totalCount [⟨29460240, 100⟩, ⟨29461680, 51⟩] = 151 ∧
    averageDaily [⟨29460240, 100⟩, ⟨29461680, 51⟩] = 76 ∧
    (0 < uniqueDays [⟨29460240, 100⟩, ⟨29461680, 51⟩] →
      averageDaily [⟨29460240, 100⟩, ⟨29461680, 51⟩] =
        specRoundHalfAwayFromZero
          ((totalCount [⟨29460240, 100⟩, ⟨29461680, 51⟩] : ℚ) /
            (uniqueDays [⟨29460240, 100⟩, ⟨29461680, 51⟩] : ℚ))) :=
  ⟨by decide, by decide, by decide,
    fun h => (C7_averageDaily_rounding [⟨29460240, 100⟩, ⟨29461680, 51⟩]).2.2 h (by decide)⟩

/-- C7 counterexample: two records on distinct days with values `-2` and
`-3`: the exact average is `-5/2`; the code's `Math.round` gives `-2`, while
round-half-away-from-zero (as the claim states) gives `-3`. -/
theorem C7_counterexample :
    totalCount [⟨29460240, -2⟩, ⟨29461680, -3⟩] = -5 ∧
    uniqueDays [⟨29460240, -2⟩, ⟨29461680, -3⟩] = 2 ∧
    averageDaily [⟨29460240, -2⟩, ⟨29461680, -3⟩] = -2 ∧
    specRoundHalfAwayFromZero
      ((totalCount [⟨29460240, -2⟩, ⟨29461680, -3⟩] : ℚ) /
        (uniqueDays [⟨29460240, -2⟩, ⟨29461680, -3⟩] : ℚ)) = -3 ∧
    ((-2 : ℤ) ≠ -3) := by
  refine ⟨by decide, by decide, by decide, ?_, by decide⟩
  rw [show totalCount [⟨29460240, -2⟩, ⟨29461680, -3⟩] = -5 from by decide,
    show uniqueDays [⟨29460240, -2⟩, ⟨29461680, -3⟩] = 2 from by decide]
  rw [specRoundHalfAwayFromZero, if_neg (by norm_num)]
  rw [show (-(((-5 : ℤ) : ℚ) / ((2 : ℕ) : ℚ)) + (1 : ℚ) / 2) = ((3 : ℤ) : ℚ) from by
    push_cast; norm_num]
  rw [Int.floor_intCast]

/-! ## C8: the trend computation -/

/-- C8: `percentageChange` is the raw change rounded to one decimal (a
multiple of `1/10` within `1/20` of the raw value, high side on ties);
the trend label is `up` exactly when the raw change exceeds `5`, `down`
exactly when it is below `-5`, `stable` otherwise; the raw change is `0`
whenever the previous total is not positive; and with zero totals in both
windows the result is `stable` with `percentageChange = 0` and zero period
totals. -/
theorem C8_trend_computation (c ca p pa : ℤ) :
    ((getTrendingAnalytics c ca p pa).trend = "up" ↔ 5 < rawPercentageChange c p) ∧
    ((getTrendingAnalytics c ca p pa).trend = "down" ↔ rawPercentageChange c p < -5) ∧
    ((getTrendingAnalytics c ca p pa).trend = "stable" ↔
      (-5 ≤ rawPercentageChange c p ∧ rawPercentageChange c p ≤ 5)) ∧
    (∃ k : ℤ, (getTrendingAnalytics c ca p pa).percentageChange = (k : ℚ) / 10) ∧
    (-(1 : ℚ) / 20 <
      (getTrendingAnalytics c ca p pa).percentageChange - rawPercentageChange c p ∧
      (getTrendingAnalytics c ca p pa).percentageChange - rawPercentageChange c p ≤ 1 / 20) ∧
    (getTrendingAnalytics c ca p pa).currentTotal = c ∧
    (getTrendingAnalytics c ca p pa).previousTotal = p ∧
    (p ≤ 0 → rawPercentageChange c p = 0) ∧
    (getTrendingAnalytics 0 0 0 0).trend = "stable" ∧
    (getTrendingAnalytics 0 0 0 0).percentageChange = 0 ∧
    (getTrendingAnalytics 0 0 0 0).currentTotal = 0 ∧
    (getTrendingAnalytics 0 0 0 0).previousTotal = 0 := by
  have htrend : (getTrendingAnalytics c ca p pa).trend =
      (if 5 < rawPercentageChange c p then "up"
       else if rawPercentageChange c p < -5 then "down" else "stable") := rfl
  have hpc : (getTrendingAnalytics c ca p pa).percentageChange =
      (jsRound (rawPercentageChange c p * 10) : ℚ) / 10 := rfl
  have hzero : rawPercentageChange 0 0 = 0 := by
    rw [rawPercentageChange, if_neg (lt_irrefl 0)]
  have hround0 : jsRound ((0 : ℚ) * 10) = 0 := by
    rw [jsRound_eq_floor, show ((0 : ℚ) * 10 + 1 / 2) = 1 / 2 from by norm_num,
      Int.floor_eq_iff]
    constructor <;> norm_num
  refine ⟨?_, ?_, ?_, ⟨jsRound (rawPercentageChange c p * 10), hpc⟩, ?_, rfl, rfl, ?_,
    ?_, ?_, rfl, rfl⟩
  · rw [htrend]
    by_cases h1 : 5 < rawPercentageChange c p
    · rw [if_pos h1]
      simp [h1]
    · rw [if_neg h1]
      by_cases h2 : rawPercentageChange c p < -5
      · rw [if_pos h2]
        simp [h1]
      · rw [if_neg h2]
        simp [h1]
  · rw [htrend]
    by_cases h1 : 5 < rawPercentageChange c p
    · rw [if_pos h1]
      constructor
      · intro h; exact absurd h (by decide)
      · intro h2; linarith
    · rw [if_neg h1]
      by_cases h2 : rawPercentageChange c p < -5
      · rw [if_pos h2]
        simp [h2]
      · rw [if_neg h2]
        simp [h2]
  · rw [htrend]
    by_cases h1 : 5 < rawPercentageChange c p
    · rw [if_pos h1]
      constructor
      · intro h; exact absurd h (by decide)
      · intro h2; linarith
    · rw [if_neg h1]
      by_cases h2 : rawPercentageChange c p < -5
      · rw [if_pos h2]
        constructor
        · intro h; exact absurd h (by decide)
        · intro h3; linarith
      · rw [if_neg h2]
        simp only [true_iff]
        constructor <;> linarith
  · rw [hpc]
    obtain ⟨hd1, hd2⟩ := jsRound_dist (rawPercentageChange c p * 10)
    constructor <;> linarith
  · intro hp
    rw [rawPercentageChange, if_neg (by omega)]
  · show (if 5 < rawPercentageChange 0 0 then "up"
      else if rawPercentageChange 0 0 < -5 then "down" else "stable") = "stable"
    rw [hzero]
    norm_num
  · show (jsRound (rawPercentageChange 0 0 * 10) : ℚ) / 10 = 0
    rw [hzero, hround0]
    norm_num

/-- C8 witness: a nonpositive previous total gives raw change `0`. -/
theorem C8_trend_computation_witness : rawPercentageChange 3 (-1) = 0 :=
  (C8_trend_computation 3 0 (-1) 0).2.2.2.2.2.2.2.1 (by norm_num)

/-! ## C9: error mapping of `readAnalyticsFromMDsveX` -/

/-- C9: reading returns `null` (not an exception) when the frontmatter
delimiter block is absent; a not-found storage error is mapped to `null`;
every other storage error is re-raised. -/
theorem C9_read_error_mapping :
    (∀ (env : FsEnv) (ty : Category) (year : ℤ) (month : ℕ) (content : List Char),
      env.readFile ty year month = .ok content → extractHeaderBlock content = none →
      readAnalyticsFromMDsveX env ty year month = .ok none) ∧
    (∀ (env : FsEnv) (ty : Category) (year : ℤ) (month : ℕ),
      env.readFile ty year month = .error .enoent →
      readAnalyticsFromMDsveX env ty year month = .ok none) ∧
    (∀ (env : FsEnv) (ty : Category) (year : ℤ) (month : ℕ) (e : JsError),
      e ≠ .enoent → env.readFile ty year month = .error e →
      readAnalyticsFromMDsveX env ty year month = .error e) := by
  refine ⟨?_, ?_, ?_⟩
  · intro env ty year month content hread hext
    rw [readAnalyticsFromMDsveX, hread]
    show Except.ok (decodeDoc content) = Except.ok none
    rw [decodeDoc, hext]
    rfl
  · intro env ty year month hread
    rw [readAnalyticsFromMDsveX, hread]
    show (if JsError.enoent = JsError.enoent then (Except.ok none : Except JsError (Option Frontmatter))
      else Except.error JsError.enoent) = Except.ok none
    rw [if_pos rfl]
  · intro env ty year month e hne hread
    rw [readAnalyticsFromMDsveX, hread]
    show (if e = JsError.enoent then (Except.ok none : Except JsError (Option Frontmatter))
      else Except.error e) = Except.error e
    rw [if_neg hne]

/-- C9 witness: the three cases at concrete environments. -/
theorem C9_read_error_mapping_witness :
    readAnalyticsFromMDsveX
      { readFile := fun _ _ _ => .ok ['n', 'o'],
        writeFile := fun _ _ _ _ => .ok (),
        renderBody := fun _ => [] } .pageViews 2026 1 = .ok none ∧
    readAnalyticsFromMDsveX
      { readFile := fun _ _ _ => .error .enoent,
        writeFile := fun _ _ _ _ => .ok (),
        renderBody := fun _ => [] } .events 2026 2 = .ok none ∧
    readAnalyticsFromMDsveX
      { readFile := fun _ _ _ => .error (.other 5),
        writeFile := fun _ _ _ _ => .ok (),
        renderBody := fun _ => [] } .userActivity 2026 3 = .error (.other 5) :=
  ⟨C9_read_error_mapping.1 _ .pageViews 2026 1 ['n', 'o'] rfl (by decide),
    C9_read_error_mapping.2.1 _ .events 2026 2 rfl,
    C9_read_error_mapping.2.2 _ .userActivity 2026 3 (.other 5) (by decide) rfl⟩

/-! ## C2: the buffered merge path of `flushAnalyticsBuffer` -/

theorem buildFrontmatter_flush (tz now : ℤ) (ty : Category) (year : ℤ) (month : ℕ)
    (data : List AnalyticsData) (T' : ℤ) (s : String) :
    buildFrontmatter tz now ty year month data
      [("totalCount", .vInt T'), ("lastUpdated", .vStr s)] =
      [("type", .vStr ty.str),
       ("year", .vInt year),
       ("month", .vInt month),
       ("totalCount", .vInt T'),
       ("uniqueCount", .vInt (uniqueDays data)),
       ("averageDaily", .vInt (averageDaily data)),
       ("peakDay", .vStr (peakDay data)),
       ("peakHour", .vInt (peakHour tz data)),
       ("lastUpdated", .vStr s)] := rfl

/-- C2: when a persisted aggregate exists for the month, flushing a non-empty
batch writes a frontmatter whose `totalCount` is the previously persisted
`totalCount` plus the sum of the new batch's values and whose `lastUpdated`
is the flush-time clock, while `uniqueCount`, `averageDaily`, `peakDay` and
`peakHour` are recomputed from the new batch only — and the written
frontmatter holds exactly the writer's nine fields, so nothing else of the
old aggregate (breakdowns included) survives. -/
theorem C2_flush_merges_totals (env : FsEnv) (tz now : ℤ) (ty : Category)
    (year : ℤ) (month : ℕ) (data : List AnalyticsData) (existing r : Frontmatter)
    (T : ℤ) (_hne : data ≠ [])
    (hread : readAnalyticsFromMDsveX env ty year month = .ok (some existing))
    (hT : existing.lookup "totalCount" = some (.vInt T))
    (hflush : flushMonth env tz now ty year month data = .ok r) :
    r.lookup "totalCount" = some (.vInt (T + (data.map AnalyticsData.value).sum)) ∧
    r.lookup "lastUpdated" = some (.vStr (String.mk (isoDateTimeChars now))) ∧
    r.lookup "uniqueCount" = some (.vInt (uniqueDays data)) ∧
    r.lookup "averageDaily" = some (.vInt (averageDaily data)) ∧
    r.lookup "peakDay" = some (.vStr (peakDay data)) ∧
    r.lookup "peakHour" = some (.vInt (peakHour tz data)) ∧
    r.map Prod.fst = ["type", "year", "month", "totalCount", "uniqueCount",
      "averageDaily", "peakDay", "peakHour", "lastUpdated"] := by
  have hTot : jsTotalField existing = T := by
    rw [jsTotalField, hT]
  have hflush' : writeAnalyticsToMDsveX env tz now ty year month data
      [("totalCount", .vInt (jsTotalField existing + totalCount data)),
       ("lastUpdated", .vStr (String.mk (isoDateTimeChars now)))] = .ok r := by
    rw [flushMonth, hread] at hflush
    exact hflush
  rw [writeAnalyticsToMDsveX] at hflush'
  rcases hw : env.writeFile ty year month
      (encodeDoc (buildFrontmatter tz now ty year month data
        [("totalCount", .vInt (jsTotalField existing + totalCount data)),
         ("lastUpdated", .vStr (String.mk (isoDateTimeChars now)))])
        (env.renderBody data)) with e | u
  · rw [hw] at hflush'
    exact absurd hflush' (by simp)
  · rw [hw] at hflush'
    have hflush'' : Except.ok (ε := JsError) (buildFrontmatter tz now ty year month data
        [("totalCount", .vInt (jsTotalField existing + totalCount data)),
         ("lastUpdated", .vStr (String.mk (isoDateTimeChars now)))]) = Except.ok r := hflush'
    have hr : buildFrontmatter tz now ty year month data
        [("totalCount", .vInt (jsTotalField existing + totalCount data)),
         ("lastUpdated", .vStr (String.mk (isoDateTimeChars now)))] = r :=
      Except.ok.inj hflush''
    rw [buildFrontmatter_flush] at hr
    rw [← hr, hTot, totalCount_eq_sum]
    exact ⟨rfl, rfl, rfl, rfl, rfl, rfl, rfl⟩

/-- C2 witness: a concrete environment persisting `totalCount: 7` and a
batch of one record with value `3`. -/
theorem C2_flush_merges_totals_witness :
    ∃ r, flushMonth
        { readFile := fun _ _ _ => .ok ("---\ntotalCount: 7\n---x".data),
          writeFile := fun _ _ _ _ => .ok (),
          renderBody := fun _ => [] } 0 29455170 .pageViews 2026 1 [⟨29460240, 3⟩] = .ok r ∧
      r.lookup "totalCount" =
        some (.vInt (7 + (([⟨29460240, 3⟩] : List AnalyticsData).map AnalyticsData.value).sum)) ∧
      r.lookup "uniqueCount" = some (.vInt (uniqueDays [⟨29460240, 3⟩])) := by
  obtain ⟨h1, _, h3, _⟩ := C2_flush_merges_totals
    { readFile := fun _ _ _ => .ok ("---\ntotalCount: 7\n---x".data),
      writeFile := fun _ _ _ _ => .ok (),
      renderBody := fun _ => [] } 0 29455170 .pageViews 2026 1 [⟨29460240, 3⟩]
    [("totalCount", .vInt 7)] _ 7 (by decide) rfl rfl rfl
  exact ⟨_, rfl, h1, h3⟩

/-! ## C10: `flushAnalyticsBuffer` never rejects -/

theorem flush_loop_spec (env : FsEnv) (tz now : ℤ) :
    ∀ (ts : List Category) (st : FlushOutcome), ts.Nodup →
      ∃ out, ts.foldlM (flushStep env tz now) st = .ok out ∧
        (∀ t, t ∉ ts → out.buffers t = st.buffers t) ∧
        (∀ t ∈ ts, out.buffers t =
          (if st.buffers t = [] then st.buffers t
           else match flushCategory env tz now t (st.buffers t) with
             | .ok _ => []
             | .error _ => st.buffers t)) ∧
        (∀ t ∈ ts, ∀ e, st.buffers t ≠ [] →
          flushCategory env tz now t (st.buffers t) = .error e → (t, e) ∈ out.flushLog) ∧
        (∀ x ∈ st.flushLog, x ∈ out.flushLog) := by
  intro ts
  induction ts with
  | nil =>
    intro st _
    exact ⟨st, rfl, fun t _ => rfl, fun t ht => absurd ht (List.not_mem_nil t),
      fun t ht => absurd ht (List.not_mem_nil t), fun x hx => hx⟩
  | cons t0 rest ih =>
    intro st hnodup
    rw [List.nodup_cons] at hnodup
    have hstep : ∃ st', flushStep env tz now st t0 = .ok st' ∧
        st'.buffers t0 =
          (if st.buffers t0 = [] then st.buffers t0
           else match flushCategory env tz now t0 (st.buffers t0) with
             | .ok _ => []
             | .error _ => st.buffers t0) ∧
        (∀ t, t ≠ t0 → st'.buffers t = st.buffers t) ∧
        (∀ e, st.buffers t0 ≠ [] →
          flushCategory env tz now t0 (st.buffers t0) = .error e → (t0, e) ∈ st'.flushLog) ∧
        (∀ x ∈ st.flushLog, x ∈ st'.flushLog) := by
      by_cases hempty : st.buffers t0 = []
      · refine ⟨st, ?_, ?_, fun t _ => rfl, fun e h _ => absurd hempty h, fun x hx => hx⟩
        · rw [flushStep, if_pos hempty]
        · rw [if_pos hempty]
      · rcases hcat : flushCategory env tz now t0 (st.buffers t0) with e | u
        · refine ⟨{ st with flushLog := st.flushLog ++ [(t0, e)] }, ?_, ?_, fun t _ => rfl,
            ?_, ?_⟩
          · rw [flushStep, if_neg hempty, hcat]
            rfl
          · rw [if_neg hempty]
          · intro e' h hcat'
            cases Except.error.inj hcat'
            simp
          · intro x hx
            simp [hx]
        · refine ⟨{ st with buffers := clearCat st.buffers t0 }, ?_, ?_, ?_, ?_, fun x hx => hx⟩
          · rw [flushStep, if_neg hempty, hcat]
            rfl
          · rw [if_neg hempty]
            show clearCat st.buffers t0 t0 = []
            rw [clearCat, if_pos rfl]
          · intro t ht
            show clearCat st.buffers t0 t = st.buffers t
            rw [clearCat, if_neg ht]
          · intro e h hcat'
            exact absurd hcat' (by simp)
    obtain ⟨st', hstep_eq, hself, hother, hlog, hlogmono⟩ := hstep
    obtain ⟨out, hout, hnotin, hin, hlogs, hlogmono'⟩ := ih st' hnodup.2
    have hfold : (t0 :: rest).foldlM (flushStep env tz now) st = .ok out := by
      rw [List.foldlM_cons, hstep_eq]
      exact hout
    refine ⟨out, hfold, ?_, ?_, ?_, fun x hx => hlogmono' x (hlogmono x hx)⟩
    · intro t ht
      have ht0 : t ≠ t0 := fun h => ht (h ▸ List.mem_cons_self t0 rest)
      have htr : t ∉ rest := fun h => ht (List.mem_cons_of_mem t0 h)
      rw [hnotin t htr, hother t ht0]
    · intro t ht
      rcases List.mem_cons.mp ht with rfl | htr
      · rw [hnotin t hnodup.1, hself]
      · have ht0 : t ≠ t0 := fun h => hnodup.1 (h ▸ htr)
        rw [hin t htr, hother t ht0]
    · intro t ht e hb hcat
      rcases List.mem_cons.mp ht with rfl | htr
      · exact hlogmono' _ (hlog e hb hcat)
      · have ht0 : t ≠ t0 := fun h => hnodup.1 (h ▸ htr)
        rw [← hother t ht0] at hb hcat
        exact hlogs t htr e hb hcat

theorem targetCategories_nodup (sel : Option Category) : (targetCategories sel).Nodup := by
  cases sel with
  | none => decide
  | some t => simp [targetCategories]

/-- C10: `flushAnalyticsBuffer` never rejects: for every buffer state and
every behaviour of the storage layer — including the single-category call —
it resolves with an outcome in which a category whose month loop raised has
its buffer left un-cleared and the error logged, a non-empty category whose
months all wrote has its buffer cleared, and untargeted categories are
untouched. -/
theorem C10_flush_never_rejects (env : FsEnv) (tz now : ℤ) (bufs : Buffers)
    (sel : Option Category) :
    ∃ out, flushAnalyticsBuffer env tz now bufs sel = .ok out ∧
      (∀ t, t ∉ targetCategories sel → out.buffers t = bufs t) ∧
      (∀ t ∈ targetCategories sel, out.buffers t =
        (if bufs t = [] then bufs t
         else match flushCategory env tz now t (bufs t) with
           | .ok _ => []
           | .error _ => bufs t)) ∧
      (∀ t ∈ targetCategories sel, ∀ e, bufs t ≠ [] →
        flushCategory env tz now t (bufs t) = .error e → (t, e) ∈ out.flushLog) := by
  obtain ⟨out, hout, hnotin, hin, hlogs, _⟩ :=
    flush_loop_spec env tz now (targetCategories sel) ⟨bufs, []⟩
      (targetCategories_nodup sel)
  exact ⟨out, hout, hnotin, hin, hlogs⟩

/-- C10 witness: a storage layer that always raises a non-ENOENT error, a
one-record page-views buffer, and the single-category call: flushing
resolves, the buffer is kept, and the failure is logged. -/
theorem C10_flush_never_rejects_witness :
    ∃ out, flushAnalyticsBuffer
        { readFile := fun _ _ _ => .error (.other 1),
          writeFile := fun _ _ _ _ => .error (.other 2),
          renderBody := fun _ => [] } 0 0
        (fun t => match t with
          | .pageViews => [⟨29460240, 1⟩]
          | _ => []) (some .pageViews) = .ok out ∧
      out.buffers .pageViews = [⟨29460240, 1⟩] ∧
      (Category.pageViews, JsError.other 1) ∈ out.flushLog := by
  obtain ⟨out, h1, _, h3, h4⟩ := C10_flush_never_rejects
    { readFile := fun _ _ _ => .error (.other 1),
      writeFile := fun _ _ _ _ => .error (.other 2),
      renderBody := fun _ => [] } 0 0
    (fun t => match t with
      | .pageViews => [⟨29460240, 1⟩]
      | _ => []) (some .pageViews)
  have hmem : Category.pageViews ∈ targetCategories (some .pageViews) := by
    simp [targetCategories]
  have hcat : flushCategory
      { readFile := fun _ _ _ => .error (.other 1),
        writeFile := fun _ _ _ _ => .error (.other 2),
        renderBody := fun _ => [] } 0 0 .pageViews [⟨29460240, 1⟩] = .error (.other 1) := rfl
  refine ⟨out, h1, ?_, ?_⟩
  · have := h3 .pageViews hmem
    rw [if_neg (by decide), hcat] at this
    exact this
  · exact h4 .pageViews hmem (.other 1) (by decide) hcat

/-! ## C6: tie-breaking of the peak selections

The head of the stable descending sort is the first entry attaining the
maximum value; for the day table that is the first-occurring tying day, and
for the hour table (pre-sorted ascending by `Object.entries`) it is the
numerically smallest tying hour. -/

/-- The step combining the head entry with the first max of the tail:
keep the head unless the tail's first max is strictly greater. -/
def firstMaxStep {α : Type} (p : α × ℤ) : Option (α × ℤ) → Option (α × ℤ)
  | none => some p
  | some q => if p.2 < q.2 then some q else some p

/-- The first entry of a list attaining the maximum value. -/
def firstMax {α : Type} : List (α × ℤ) → Option (α × ℤ)
  | [] => none
  | p :: rest => firstMaxStep p (firstMax rest)

theorem firstMaxStep_ne_none {α : Type} (p : α × ℤ) (o : Option (α × ℤ)) :
    firstMaxStep p o ≠ none := by
  cases o with
  | none => simp [firstMaxStep]
  | some q =>
    show (if p.2 < q.2 then some q else some p) ≠ none
    split <;> simp

theorem insertValueDesc_head {α : Type} (p : α × ℤ) (l : List (α × ℤ)) :
    (insertValueDesc p l).head? = firstMaxStep p l.head? := by
  cases l with
  | nil => rfl
  | cons q t =>
    rw [insertValueDesc]
    by_cases h : p.2 < q.2
    · rw [if_pos h]
      show some q = if p.2 < q.2 then some q else some p
      rw [if_pos h]
    · rw [if_neg h]
      show some p = if p.2 < q.2 then some q else some p
      rw [if_neg h]

theorem sortValueDesc_head {α : Type} :
    ∀ l : List (α × ℤ), (sortValueDesc l).head? = firstMax l := by
  intro l
  induction l with
  | nil => rfl
  | cons p rest ih =>
    rw [sortValueDesc, insertValueDesc_head, ih, firstMax]

theorem firstMax_mem {α : Type} :
    ∀ (l : List (α × ℤ)) (p : α × ℤ), firstMax l = some p → p ∈ l := by
  intro l
  induction l with
  | nil => intro p h; exact absurd h (by simp [firstMax])
  | cons a rest ih =>
    intro p h
    rw [firstMax] at h
    rcases hf : firstMax rest with _ | q
    · rw [hf] at h
      exact (Option.some.inj h) ▸ List.mem_cons_self a rest
    · rw [hf] at h
      by_cases hq : a.2 < q.2
      · have h' : some q = some p := by
          rw [← h]
          show some q = if a.2 < q.2 then some q else some a
          rw [if_pos hq]
        exact List.mem_cons_of_mem a (ih p ((Option.some.inj h') ▸ hf))
      · have h' : some a = some p := by
          rw [← h]
          show some a = if a.2 < q.2 then some q else some a
          rw [if_neg hq]
        exact (Option.some.inj h') ▸ List.mem_cons_self a rest

theorem firstMax_max {α : Type} :
    ∀ (l : List (α × ℤ)) (p : α × ℤ), firstMax l = some p → ∀ q ∈ l, q.2 ≤ p.2 := by
  intro l
  induction l with
  | nil => intro p h; exact absurd h (by simp [firstMax])
  | cons a rest ih =>
    intro p h q hq
    rw [firstMax] at h
    rcases hf : firstMax rest with _ | m
    · rw [hf] at h
      have hp : a = p := Option.some.inj h
      rcases List.mem_cons.mp hq with rfl | hq'
      · rw [← hp]
      · cases rest with
        | nil => exact absurd hq' (List.not_mem_nil q)
        | cons b rb =>
          rw [firstMax] at hf
          exact absurd hf (firstMaxStep_ne_none b _)
    · rw [hf] at h
      by_cases hm : a.2 < m.2
      · have h' : some m = some p := by
          rw [← h]
          show some m = if a.2 < m.2 then some m else some a
          rw [if_pos hm]
        have hmp : m = p := Option.some.inj h'
        rcases List.mem_cons.mp hq with rfl | hq'
        · rw [← hmp]; omega
        · exact hmp ▸ ih m hf q hq'
      · have h' : some a = some p := by
          rw [← h]
          show some a = if a.2 < m.2 then some m else some a
          rw [if_neg hm]
        have hap : a = p := Option.some.inj h'
        rcases List.mem_cons.mp hq with rfl | hq'
        · rw [← hap]
        · have := ih m hf q hq'
          rw [← hap]
          omega

theorem firstMax_isSome {α : Type} (a : α × ℤ) (l : List (α × ℤ)) :
    ∃ p, firstMax (a :: l) = some p := by
  rw [firstMax]
  rcases firstMax l with _ | q
  · exact ⟨a, rfl⟩
  · by_cases h : a.2 < q.2
    · refine ⟨q, ?_⟩
      show (if a.2 < q.2 then some q else some a) = some q
      rw [if_pos h]
    · refine ⟨a, ?_⟩
      show (if a.2 < q.2 then some q else some a) = some a
      rw [if_neg h]

theorem firstMax_find? {α : Type} :
    ∀ (l : List (α × ℤ)) (p : α × ℤ), firstMax l = some p →
      l.find? (fun q => decide (p.2 ≤ q.2)) = some p := by
  intro l
  induction l with
  | nil => intro p h; exact absurd h (by simp [firstMax])
  | cons a rest ih =>
    intro p h
    rw [firstMax] at h
    rcases hf : firstMax rest with _ | m
    · rw [hf] at h
      have hp : a = p := Option.some.inj h
      have hd : decide (p.2 ≤ a.2) = true := decide_eq_true (by rw [← hp])
      rw [List.find?_cons, hd]
      show some a = some p
      rw [hp]
    · rw [hf] at h
      by_cases hm : a.2 < m.2
      · have h' : some m = some p := by
          rw [← h]
          show some m = if a.2 < m.2 then some m else some a
          rw [if_pos hm]
        have hmp : m = p := Option.some.inj h'
        have hd : decide (p.2 ≤ a.2) = false := decide_eq_false (by rw [← hmp]; omega)
        rw [List.find?_cons, hd]
        show List.find? (fun q => decide (p.2 ≤ q.2)) rest = some p
        exact ih p (hmp ▸ hf)
      · have h' : some a = some p := by
          rw [← h]
          show some a = if a.2 < m.2 then some m else some a
          rw [if_neg hm]
        have hap : a = p := Option.some.inj h'
        have hd : decide (p.2 ≤ a.2) = true := decide_eq_true (by rw [← hap])
        rw [List.find?_cons, hd]
        show some a = some p
        rw [hap]

theorem insertKeyAsc_mem (p x : ℕ × ℤ) (l : List (ℕ × ℤ)) :
    x ∈ insertKeyAsc p l ↔ x = p ∨ x ∈ l := by
  induction l with
  | nil => simp [insertKeyAsc]
  | cons q rest ih =>
    rw [insertKeyAsc]
    by_cases h : q.1 ≤ p.1
    · rw [if_pos h]
      simp only [List.mem_cons, ih]
      tauto
    · rw [if_neg h]
      simp only [List.mem_cons]

theorem sortKeyAsc_mem (x : ℕ × ℤ) (l : List (ℕ × ℤ)) :
    x ∈ sortKeyAsc l ↔ x ∈ l := by
  induction l with
  | nil => simp [sortKeyAsc]
  | cons p rest ih =>
    rw [sortKeyAsc, insertKeyAsc_mem, ih]
    simp

theorem insertKeyAsc_pairwise (p : ℕ × ℤ) (l : List (ℕ × ℤ))
    (hl : l.Pairwise (fun a b => a.1 ≤ b.1)) :
    (insertKeyAsc p l).Pairwise (fun a b => a.1 ≤ b.1) := by
  induction l with
  | nil => simp [insertKeyAsc]
  | cons q rest ih =>
    rw [List.pairwise_cons] at hl
    rw [insertKeyAsc]
    by_cases h : q.1 ≤ p.1
    · rw [if_pos h]
      rw [List.pairwise_cons]
      refine ⟨?_, ih hl.2⟩
      intro x hx
      rcases (insertKeyAsc_mem p x rest).mp hx with rfl | hx'
      · exact h
      · exact hl.1 x hx'
    · rw [if_neg h]
      rw [List.pairwise_cons]
      refine ⟨?_, List.pairwise_cons.mpr hl⟩
      intro x hx
      rcases List.mem_cons.mp hx with rfl | hx'
      · omega
      · have := hl.1 x hx'
        omega

theorem sortKeyAsc_pairwise (l : List (ℕ × ℤ)) :
    (sortKeyAsc l).Pairwise (fun a b => a.1 ≤ b.1) := by
  induction l with
  | nil => simp [sortKeyAsc]
  | cons p rest ih =>
    rw [sortKeyAsc]
    exact insertKeyAsc_pairwise p _ ih

/-- In a key-ascending list, the first entry satisfying a predicate has the
smallest key among all entries satisfying it. -/
theorem find?_sorted_min_key (P : ℕ × ℤ → Bool) :
    ∀ (l : List (ℕ × ℤ)), l.Pairwise (fun a b => a.1 ≤ b.1) →
      ∀ p, l.find? P = some p → ∀ q ∈ l, P q = true → p.1 ≤ q.1 := by
  intro l
  induction l with
  | nil => intro _ p h; exact absurd h (by simp)
  | cons a rest ih =>
    intro hpw p h q hq hPq
    rw [List.pairwise_cons] at hpw
    rw [List.find?_cons] at h
    by_cases hPa : P a = true
    · rw [hPa] at h
      have hap : a = p := Option.some.inj h
      rcases List.mem_cons.mp hq with rfl | hq'
      · rw [← hap]
      · rw [← hap]
        exact hpw.1 q hq'
    · have hPa' : P a = false := by simpa using hPa
      rw [hPa'] at h
      have h' : List.find? P rest = some p := h
      rcases List.mem_cons.mp hq with rfl | hq'
      · exact absurd hPq hPa
      · exact ih hpw.2 p h' q hq' hPq

/-- Deduplication keeping the first occurrence of each element (the key
order of a JS object with non-integer-like keys). -/
def dedupFirstAux {α : Type} [DecidableEq α] (seen : List α) : List α → List α
  | [] => []
  | a :: rest =>
    if a ∈ seen then dedupFirstAux seen rest else a :: dedupFirstAux (a :: seen) rest

/-- Deduplication keeping first occurrences, in order. -/
def dedupFirst {α : Type} [DecidableEq α] (l : List α) : List α := dedupFirstAux [] l

theorem dedupFirstAux_congr {α : Type} [DecidableEq α] :
    ∀ (l s₁ s₂ : List α), (∀ x, x ∈ s₁ ↔ x ∈ s₂) →
      dedupFirstAux s₁ l = dedupFirstAux s₂ l := by
  intro l
  induction l with
  | nil => intro s₁ s₂ _; rfl
  | cons a rest ih =>
    intro s₁ s₂ hiff
    rw [dedupFirstAux, dedupFirstAux]
    by_cases ha : a ∈ s₁
    · rw [if_pos ha, if_pos ((hiff a).mp ha), ih s₁ s₂ hiff]
    · rw [if_neg ha, if_neg (fun h => ha ((hiff a).mpr h)),
        ih (a :: s₁) (a :: s₂) (by intro x; simp [hiff x])]

theorem dedupFirstAux_subset {α : Type} [DecidableEq α] :
    ∀ (l seen : List α) (x : α), x ∈ dedupFirstAux seen l → x ∈ l := by
  intro l
  induction l with
  | nil => intro seen x h; exact absurd h (List.not_mem_nil x)
  | cons a rest ih =>
    intro seen x h
    rw [dedupFirstAux] at h
    by_cases ha : a ∈ seen
    · rw [if_pos ha] at h
      exact List.mem_cons_of_mem a (ih seen x h)
    · rw [if_neg ha] at h
      rcases List.mem_cons.mp h with rfl | h'
      · exact List.mem_cons_self x rest
      · exact List.mem_cons_of_mem a (ih (a :: seen) x h')

theorem dedupFirstAux_nodup {α : Type} [DecidableEq α] :
    ∀ (l seen : List α),
      (dedupFirstAux seen l).Nodup ∧ ∀ x ∈ dedupFirstAux seen l, x ∉ seen := by
  intro l
  induction l with
  | nil => intro seen; exact ⟨List.nodup_nil, fun x hx => absurd hx (List.not_mem_nil x)⟩
  | cons a rest ih =>
    intro seen
    rw [dedupFirstAux]
    by_cases ha : a ∈ seen
    · rw [if_pos ha]
      exact ih seen
    · rw [if_neg ha]
      obtain ⟨hnd, hnotin⟩ := ih (a :: seen)
      refine ⟨List.nodup_cons.mpr ⟨?_, hnd⟩, ?_⟩
      · intro hmem
        exact hnotin a hmem (List.mem_cons_self a seen)
      · intro x hx
        rcases List.mem_cons.mp hx with rfl | hx'
        · exact ha
        · exact fun hs => hnotin x hx' (List.mem_cons_of_mem a hs)

theorem bumpEntry_keys {α : Type} [DecidableEq α] (acc : List (α × ℤ)) (k : α) (v : ℤ) :
    (bumpEntry acc k v).map Prod.fst =
      (if k ∈ acc.map Prod.fst then acc.map Prod.fst else acc.map Prod.fst ++ [k]) := by
  by_cases hk : k ∈ acc.map Prod.fst
  · have hany : acc.any (fun p => decide (p.1 = k)) = true := by
      rw [List.any_eq_true]
      obtain ⟨p, hp, hpk⟩ := List.mem_map.mp hk
      exact ⟨p, hp, decide_eq_true hpk⟩
    rw [bumpEntry, if_pos hany, if_pos hk, List.map_map]
    refine List.map_congr_left ?_
    intro p _
    show (if p.1 = k then (p.1, p.2 + v) else p).1 = p.1
    split <;> rfl
  · have hany : ¬ acc.any (fun p => decide (p.1 = k)) = true := by
      rw [List.any_eq_true]
      rintro ⟨p, hp, hpk⟩
      exact hk (List.mem_map.mpr ⟨p, hp, of_decide_eq_true hpk⟩)
    rw [bumpEntry, if_neg hany, if_neg hk]
    simp

theorem foldl_bump_keys {α : Type} [DecidableEq α] (f : AnalyticsData → α) :
    ∀ (l : List AnalyticsData) (acc : List (α × ℤ)),
      (l.foldl (fun a r => bumpEntry a (f r) r.value) acc).map Prod.fst =
        acc.map Prod.fst ++ dedupFirstAux (acc.map Prod.fst) (l.map f) := by
  intro l
  induction l with
  | nil => intro acc; simp [dedupFirstAux]
  | cons r rest ih =>
    intro acc
    rw [List.foldl_cons, List.map_cons, dedupFirstAux]
    by_cases hk : f r ∈ acc.map Prod.fst
    · rw [if_pos hk, ih]
      rw [bumpEntry_keys, if_pos hk]
    · rw [if_neg hk, ih]
      rw [bumpEntry_keys, if_neg hk]
      rw [dedupFirstAux_congr (rest.map f) (acc.map Prod.fst ++ [f r]) (f r :: acc.map Prod.fst)
        (by intro x; simp; tauto)]
      simp

theorem dailyTotals_keys (data : List AnalyticsData) :
    (dailyTotals data).map Prod.fst = dedupFirst (data.map recordDay) := by
  rw [dailyTotals, foldl_bump_keys recordDay data [], dedupFirst]
  simp

theorem dailyTotals_keys_nodup (data : List AnalyticsData) :
    ((dailyTotals data).map Prod.fst).Nodup := by
  rw [dailyTotals_keys]
  exact (dedupFirstAux_nodup (data.map recordDay) []).1

theorem lookup_eq_of_mem_nodup {β : Type} :
    ∀ (l : List (String × β)) (k : String) (v : β),
      (l.map Prod.fst).Nodup → (k, v) ∈ l → l.lookup k = some v := by
  intro l
  induction l with
  | nil => intro k v _ h; exact absurd h (List.not_mem_nil _)
  | cons q rest ih =>
    intro k v hnd hmem
    rw [List.map_cons, List.nodup_cons] at hnd
    rcases List.mem_cons.mp hmem with heq | hmem'
    · rw [List.lookup, show (k == q.1) = true from by
        rw [show q.1 = k from congrArg Prod.fst heq.symm]; simp]
      rw [show q.2 = v from congrArg Prod.snd heq.symm]
    · have hk : k ≠ q.1 := by
        intro hkq
        exact hnd.1 (hkq ▸ List.mem_map.mpr ⟨(k, v), hmem', rfl⟩)
      rw [List.lookup, show (k == q.1) = false from by
        simp only [beq_eq_false_iff_ne, ne_eq]; exact hk]
      exact ih k v hnd.2 hmem'

theorem find?_entries_to_keys {β : Type} (g : String → β) (P : String × β → Bool) :
    ∀ L : List (String × β), (∀ q ∈ L, q = (q.1, g q.1)) →
      L.find? P = ((L.map Prod.fst).find? (fun k => P (k, g k))).map (fun k => (k, g k)) := by
  intro L
  induction L with
  | nil => intro _; rfl
  | cons q rest ih =>
    intro hdet
    have hq : q = (q.1, g q.1) := hdet q (List.mem_cons_self q rest)
    have hd : P (q.1, g q.1) = P q := by rw [← hq]
    rw [List.map_cons, List.find?_cons, List.find?_cons, hd]
    rcases hPq : P q with _ | _
    · exact ih (fun x hx => hdet x (List.mem_cons_of_mem q hx))
    · rw [Option.map_some']
      rw [← hq]

theorem find?_min_indexOf :
    ∀ (l : List String) (P : String → Bool) (a : String), l.find? P = some a →
      ∀ b ∈ l, P b = true → l.indexOf a ≤ l.indexOf b := by
  intro l
  induction l with
  | nil => intro P a h; exact absurd h (by simp)
  | cons x rest ih =>
    intro P a h b hb hPb
    rw [List.find?_cons] at h
    rcases hPx : P x with _ | _
    · rw [hPx] at h
      have h' : List.find? P rest = some a := h
      have hPa : P a = true := List.find?_some h'
      have hax : a ≠ x := fun hax => by rw [hax, hPx] at hPa; exact Bool.false_ne_true hPa
      rcases List.mem_cons.mp hb with rfl | hb'
      · rw [hPx] at hPb
        exact absurd hPb (by simp)
      · have hbx : b ≠ x := fun hbx => by rw [hbx, hPx] at hPb; exact Bool.false_ne_true hPb
        rw [List.indexOf_cons_ne rest hax.symm, List.indexOf_cons_ne rest hbx.symm]
        exact Nat.succ_le_succ (ih P a h' b hb' hPb)
    · rw [hPx] at h
      have hax : x = a := Option.some.inj h
      rw [← hax, List.indexOf_cons_self]
      exact Nat.zero_le _

theorem firstMax_of_mem {α : Type} (l : List (α × ℤ)) (x : α × ℤ) (hx : x ∈ l) :
    ∃ p, firstMax l = some p := by
  cases l with
  | nil => exact absurd hx (List.not_mem_nil x)
  | cons a t => exact firstMax_isSome a t

theorem peakDay_eq_of_firstMax (data : List AnalyticsData) (p : String × ℤ)
    (h : firstMax (dailyTotals data) = some p) : peakDay data = p.1 := by
  rw [peakDay, sortValueDesc_head, h]

theorem peakHour_eq_of_firstMax (tz : ℤ) (data : List AnalyticsData) (p : ℕ × ℤ)
    (h : firstMax (jsEntriesNumKeyed (hourlyTotals tz data)) = some p) :
    peakHour tz data = p.1 := by
  rw [peakHour, sortValueDesc_head, h]

/-- `find?` does not see repeated occurrences, so deduplication keeping first
occurrences leaves it unchanged (as long as nothing already seen satisfies
the predicate). -/
theorem find?_dedupFirstAux {α : Type} [DecidableEq α] (Q : α → Bool) :
    ∀ (l seen : List α), (∀ x ∈ seen, Q x = false) →
      (dedupFirstAux seen l).find? Q = l.find? Q := by
  intro l
  induction l with
  | nil => intro seen _; rfl
  | cons a rest ih =>
    intro seen hseen
    rw [dedupFirstAux]
    by_cases ha : a ∈ seen
    · rw [if_pos ha, List.find?_cons, hseen a ha]
      exact ih seen hseen
    · rw [if_neg ha, List.find?_cons, List.find?_cons]
      by_cases hQa : Q a = true
      · rw [hQa]
      · have hQa' : Q a = false := by simpa using hQa
        rw [hQa']
        refine ih (a :: seen) ?_
        intro x hx
        rcases List.mem_cons.mp hx with rfl | hx'
        · exact hQa'
        · exact hseen x hx'

/-- Every entry of the daily-totals object is determined by its key through
`lookup` (keys are unique). -/
theorem dailyTotals_entries_det (data : List AnalyticsData) :
    ∀ q ∈ dailyTotals data,
      q = (q.1, (((dailyTotals data).lookup q.1).getD 0 : ℤ)) := by
  intro q hq
  have hq' : (q.1, q.2) ∈ dailyTotals data := by
    rw [Prod.mk.eta]
    exact hq
  have hl : (dailyTotals data).lookup q.1 = some q.2 :=
    lookup_eq_of_mem_nodup (dailyTotals data) q.1 q.2 (dailyTotals_keys_nodup data) hq'
  rw [hl]
  exact Prod.mk.eta.symm

/-- C6.  Tie-breaking of the two peak selections.  `peakDay` picks, among the
days attaining the maximal total, the one whose first record occurs earliest
in the input (the stable descending sort keeps the object's insertion order,
which for the date-string keys is first-occurrence order).  `peakHour`,
however, picks the numerically smallest tying hour: `Object.entries`
enumerates the integer-like hour keys in ascending numeric order before the
sort, so insertion order is forgotten.  The spec's uniform "earlier in the
input data" tie-break is therefore right for `peakDay` but wrong for
`peakHour`. -/
theorem C6_peak_tie_breaking (tz : ℤ) (data : List AnalyticsData) :
    (∀ d vd, (d, vd) ∈ dailyTotals data → (∀ q ∈ dailyTotals data, q.2 ≤ vd) →
      (peakDay data, vd) ∈ dailyTotals data ∧
      (data.map recordDay).indexOf (peakDay data) ≤ (data.map recordDay).indexOf d) ∧
    (∀ h vh, (h, vh) ∈ hourlyTotals tz data → (∀ q ∈ hourlyTotals tz data, q.2 ≤ vh) →
      (peakHour tz data, vh) ∈ hourlyTotals tz data ∧ peakHour tz data ≤ h) := by
  constructor
  · intro d vd hd hmax
    obtain ⟨p, hp⟩ := firstMax_of_mem (dailyTotals data) (d, vd) hd
    have hpd : peakDay data = p.1 := peakDay_eq_of_firstMax data p hp
    have hpmem : p ∈ dailyTotals data := firstMax_mem _ p hp
    have hple : p.2 ≤ vd := hmax p hpmem
    have hvle : vd ≤ p.2 := firstMax_max _ p hp (d, vd) hd
    have hpv : p.2 = vd := le_antisymm hple hvle
    constructor
    · rw [hpd, ← hpv, Prod.mk.eta]
      exact hpmem
    · have hfind : (dailyTotals data).find? (fun q => decide (p.2 ≤ q.2)) = some p :=
        firstMax_find? _ p hp
      have htrans := find?_entries_to_keys
        (fun k => (((dailyTotals data).lookup k).getD 0 : ℤ))
        (fun q => decide (p.2 ≤ q.2)) (dailyTotals data)
        (dailyTotals_entries_det data)
      rw [hfind] at htrans
      obtain ⟨k, hk, hfk⟩ := Option.map_eq_some'.mp htrans.symm
      have hkp : k = p.1 := congrArg Prod.fst hfk
      rw [dailyTotals_keys, dedupFirst,
        find?_dedupFirstAux _ (data.map recordDay) []
          (fun x hx => absurd hx (List.not_mem_nil x))] at hk
      have hd_mem : d ∈ data.map recordDay := by
        have h1 : d ∈ (dailyTotals data).map Prod.fst := List.mem_map.mpr ⟨(d, vd), hd, rfl⟩
        rw [dailyTotals_keys, dedupFirst] at h1
        exact dedupFirstAux_subset (data.map recordDay) [] d h1
      have hlook : (dailyTotals data).lookup d = some vd :=
        lookup_eq_of_mem_nodup (dailyTotals data) d vd (dailyTotals_keys_nodup data) hd
      have hQd : decide (p.2 ≤ (((dailyTotals data).lookup d).getD 0 : ℤ)) = true := by
        rw [hlook]
        exact decide_eq_true (le_of_eq hpv)
      have hmin := find?_min_indexOf (data.map recordDay) _ k hk d hd_mem hQd
      rw [hpd, ← hkp]
      exact hmin
  · intro h vh hh hmax
    have hhE : ((h, vh) : ℕ × ℤ) ∈ jsEntriesNumKeyed (hourlyTotals tz data) :=
      (sortKeyAsc_mem (h, vh) (hourlyTotals tz data)).mpr hh
    obtain ⟨p, hp⟩ := firstMax_of_mem _ (h, vh) hhE
    have hph : peakHour tz data = p.1 := peakHour_eq_of_firstMax tz data p hp
    have hpmem : p ∈ hourlyTotals tz data :=
      (sortKeyAsc_mem p (hourlyTotals tz data)).mp (firstMax_mem _ p hp)
    have hple : p.2 ≤ vh := hmax p hpmem
    have hvle : vh ≤ p.2 := firstMax_max _ p hp (h, vh) hhE
    have hpv : p.2 = vh := le_antisymm hple hvle
    constructor
    · rw [hph, ← hpv, Prod.mk.eta]
      exact hpmem
    · have hfind := firstMax_find? _ p hp
      have hmin := find?_sorted_min_key _ (jsEntriesNumKeyed (hourlyTotals tz data))
        (sortKeyAsc_pairwise _) p hfind (h, vh) hhE (decide_eq_true (le_of_eq hpv))
      rw [hph]
      exact hmin

/-- Concrete input for the C6 witness: two tying records on distinct days
(2026-01-01 at hour 10 first, 2026-01-02 at hour 3 second), both of value 5. -/
def exC6 : List AnalyticsData := [⟨20454 * 1440 + 600, 5⟩, ⟨20455 * 1440 + 180, 5⟩]

/-- Witness for C6 at UTC offset 0: among the tying days the first-occurring
one wins (index 0), and among the tying hours 10 and 3 the peak hour is
at most 10 (it is in fact 3, the smaller one — see the counterexample). -/
theorem C6_peak_tie_breaking_witness :
    ((peakDay exC6, (5 : ℤ)) ∈ dailyTotals exC6 ∧
      (exC6.map recordDay).indexOf (peakDay exC6) ≤
        (exC6.map recordDay).indexOf "2026-01-02") ∧
    ((peakHour 0 exC6, (5 : ℤ)) ∈ hourlyTotals 0 exC6 ∧ peakHour 0 exC6 ≤ 10) :=
  ⟨(C6_peak_tie_breaking 0 exC6).1 "2026-01-02" 5 (by decide) (by decide),
   (C6_peak_tie_breaking 0 exC6).2 10 5 (by decide) (by decide)⟩

/-- Concrete input refuting the spec's tie-break for `peakHour`: two tying
records on the same day, hour 10 occurring first in the data, hour 3 second. -/
def exC6ce : List AnalyticsData := [⟨20454 * 1440 + 600, 5⟩, ⟨20454 * 1440 + 180, 5⟩]

/-- Counterexample for C6: hour 10 occurs first in the input (the hourly
object lists it first) and ties with hour 3 at value 5, yet the code's peak
hour is 3, not the first-occurring 10 — `Object.entries` re-orders the
integer-like hour keys ascending before the stable sort. -/
theorem C6_counterexample :
    hourlyTotals 0 exC6ce = [(10, 5), (3, 5)] ∧
      peakHour 0 exC6ce = 3 ∧ (3 : ℕ) ≠ 10 := by
  decide

end Analytics
